import Mathlib

/-!
Verification of the Password-Manager vault core.

Shallow embedding of `scripts/vault_crypto.py` (envelope format, key
derivation, AES-GCM encrypt/decrypt wrappers) and of the `VaultStore`
in `scripts/vault_tui_textual.py` (load/save of the decrypted JSON
document, add/update/delete/reorder/sort on entries).

Conventions:
* Python `bytes` are modelled as `List Nat` (each element a byte value).
* Python slicing `blob[a:b]` is `(blob.drop a).take (b - a)`.
* The randomness consumed by `secrets.token_bytes` is supplied to the
  embedded functions as explicit arguments (`salt`, `nonce`).
* Exceptions are modelled with `Except String`.
-/

/-! ## Binary layout constants (vault_crypto.py, lines 12-19) -/

/-- The magic literal `b"VLT2"` as byte values. -/
def MAGIC : List Nat := [86, 76, 84, 50]

def SALT_SIZE : Nat := 16

def NONCE_SIZE : Nat := 12

def TAG_SIZE : Nat := 16

/-- AES-256 key size. -/
def KEY_SIZE : Nat := 32

def PBKDF2_ITERATIONS : Nat := 10000

/-! ## VaultPayload (vault_crypto.py, lines 22-46) -/

structure VaultPayload where
  salt : List Nat
  nonce : List Nat
  tag : List Nat
  ciphertext : List Nat
deriving DecidableEq

/-- `VaultPayload.to_bytes`: `MAGIC + salt + nonce + tag + ciphertext`. -/
def VaultPayload.to_bytes (p : VaultPayload) : List Nat :=
  MAGIC ++ p.salt ++ p.nonce ++ p.tag ++ p.ciphertext

/-- `VaultPayload.from_bytes`: checks the minimum header length and the
magic, then slices the fixed-width fields; `ValueError` is modelled as
`Except.error` with the source's message. -/
def VaultPayload.from_bytes (blob : List Nat) : Except String VaultPayload :=
  let header_len := MAGIC.length + SALT_SIZE + NONCE_SIZE + TAG_SIZE
  if blob.length < header_len then .error "Vault file too small"
  else if blob.take MAGIC.length ≠ MAGIC then .error "Invalid vault header"
  else
    let salt_offset := MAGIC.length
    let nonce_offset := salt_offset + SALT_SIZE
    let tag_offset := nonce_offset + NONCE_SIZE
    .ok { salt := (blob.drop salt_offset).take SALT_SIZE
        , nonce := (blob.drop nonce_offset).take NONCE_SIZE
        , tag := (blob.drop tag_offset).take TAG_SIZE
        , ciphertext := blob.drop (tag_offset + TAG_SIZE) }

/-! ## SHA-256, HMAC and PBKDF2 (models of the `hashlib` calls)

`derive_key` calls `hashlib.pbkdf2_hmac("sha256", ...)`, which is Python
standard-library code external to this repository.  It is modelled here
by a full implementation of FIPS-180-4 SHA-256, RFC-2104 HMAC and
RFC-8018 PBKDF2, so that the constants used by `derive_key`
(iteration count, key length) stay connected to the real construction. -/

/-- Big-endian 4-byte serialization of a 32-bit word. -/
def be4 (w : Nat) : List Nat :=
  [w / 2 ^ 24 % 256, w / 2 ^ 16 % 256, w / 2 ^ 8 % 256, w % 256]

/-- Big-endian 8-byte serialization (used for the SHA-256 length field). -/
def be8 (w : Nat) : List Nat :=
  [w / 2 ^ 56 % 256, w / 2 ^ 48 % 256, w / 2 ^ 40 % 256, w / 2 ^ 32 % 256,
   w / 2 ^ 24 % 256, w / 2 ^ 16 % 256, w / 2 ^ 8 % 256, w % 256]

/-- Right rotation of a 32-bit word. -/
def rotr32 (n w : Nat) : Nat := ((w >>> n) ||| (w <<< (32 - n))) % 2 ^ 32

def sha256BigSigma0 (w : Nat) : Nat := rotr32 2 w ^^^ rotr32 13 w ^^^ rotr32 22 w

def sha256BigSigma1 (w : Nat) : Nat := rotr32 6 w ^^^ rotr32 11 w ^^^ rotr32 25 w

def sha256SmallSigma0 (w : Nat) : Nat := rotr32 7 w ^^^ rotr32 18 w ^^^ (w >>> 3)

def sha256SmallSigma1 (w : Nat) : Nat := rotr32 17 w ^^^ rotr32 19 w ^^^ (w >>> 10)

def sha256Ch (x y z : Nat) : Nat := (x &&& y) ^^^ ((x ^^^ (2 ^ 32 - 1)) &&& z)

def sha256Maj (x y z : Nat) : Nat := (x &&& y) ^^^ (x &&& z) ^^^ (y &&& z)

/-- The 64 SHA-256 round constants. -/
def sha256K : List Nat :=
  [1116352408, 1899447441, 3049323471, 3921009573, 961987163, 1508970993,
   2453635748, 2870763221, 3624381080, 310598401, 607225278, 1426881987,
   1925078388, 2162078206, 2614888103, 3248222580, 3835390401, 4022224774,
   264347078, 604807628, 770255983, 1249150122, 1555081692, 1996064986,
   2554220882, 2821834349, 2952996808, 3210313671, 3336571891, 3584528711,
   113926993, 338241895, 666307205, 773529912, 1294757372, 1396182291,
   1695183700, 1986661051, 2177026350, 2456956037, 2730485921, 2820302411,
   3259730800, 3345764771, 3516065817, 3600352804, 4094571909, 275423344,
   430227734, 506948616, 659060556, 883997877, 958139571, 1322822218,
   1537002063, 1747873779, 1955562222, 2024104815, 2227730452, 2361852424,
   2428436474, 2756734187, 3204031479, 3329325298]

structure Sha256State where
  a0 : Nat
  a1 : Nat
  a2 : Nat
  a3 : Nat
  a4 : Nat
  a5 : Nat
  a6 : Nat
  a7 : Nat

/-- The SHA-256 initial hash value. -/
def sha256InitState : Sha256State :=
  ⟨1779033703, 3144134277, 1013904242, 2773480762, 1359893119, 2600822924, 528734635, 1541459225⟩

/-- The 16 big-endian message words of a 64-byte block. -/
def sha256Words (block : List Nat) : List Nat :=
  (List.range 16).map fun i =>
    block.getD (4 * i) 0 * 2 ^ 24 + block.getD (4 * i + 1) 0 * 2 ^ 16 +
      block.getD (4 * i + 2) 0 * 2 ^ 8 + block.getD (4 * i + 3) 0

/-- Message-schedule extension from 16 to 64 words. -/
def sha256Extend (w : List Nat) : List Nat :=
  (List.range 48).foldl
    (fun ws _ =>
      ws ++ [(sha256SmallSigma1 (ws.getD (ws.length - 2) 0) + ws.getD (ws.length - 7) 0 +
              sha256SmallSigma0 (ws.getD (ws.length - 15) 0) + ws.getD (ws.length - 16) 0) % 2 ^ 32])
    w

/-- One SHA-256 compression round. -/
def sha256Round (s : Sha256State) (kw : Nat × Nat) : Sha256State :=
  let t1 := (s.a7 + sha256BigSigma1 s.a4 + sha256Ch s.a4 s.a5 s.a6 + kw.1 + kw.2) % 2 ^ 32
  let t2 := (sha256BigSigma0 s.a0 + sha256Maj s.a0 s.a1 s.a2) % 2 ^ 32
  ⟨(t1 + t2) % 2 ^ 32, s.a0, s.a1, s.a2, (s.a3 + t1) % 2 ^ 32, s.a4, s.a5, s.a6⟩

/-- Compression of one 64-byte block. -/
def sha256Compress (st : Sha256State) (block : List Nat) : Sha256State :=
  let w := sha256Extend (sha256Words block)
  let f := (sha256K.zip w).foldl sha256Round st
  ⟨(st.a0 + f.a0) % 2 ^ 32, (st.a1 + f.a1) % 2 ^ 32, (st.a2 + f.a2) % 2 ^ 32,
   (st.a3 + f.a3) % 2 ^ 32, (st.a4 + f.a4) % 2 ^ 32, (st.a5 + f.a5) % 2 ^ 32,
   (st.a6 + f.a6) % 2 ^ 32, (st.a7 + f.a7) % 2 ^ 32⟩

/-- SHA-256 padding: a `0x80` byte, zeros, then the 64-bit bit length. -/
def sha256Pad (msg : List Nat) : List Nat :=
  msg ++ [0x80] ++ List.replicate ((55 + 64 - msg.length % 64) % 64) 0 ++ be8 (8 * msg.length)

/-- Split a list into 64-byte chunks (fuel-based structural recursion). -/
def chunks64 : Nat → List Nat → List (List Nat)
  | 0, _ => []
  | _ + 1, [] => []
  | fuel + 1, l => l.take 64 :: chunks64 fuel (l.drop 64)

/-- The 32-byte SHA-256 digest of a byte sequence. -/
def sha256 (msg : List Nat) : List Nat :=
  let padded := sha256Pad msg
  let st := (chunks64 padded.length padded).foldl sha256Compress sha256InitState
  be4 st.a0 ++ be4 st.a1 ++ be4 st.a2 ++ be4 st.a3 ++ be4 st.a4 ++ be4 st.a5 ++ be4 st.a6 ++ be4 st.a7

/-- RFC-2104 HMAC instantiated with SHA-256 (block size 64). -/
def hmacSha256 (key msg : List Nat) : List Nat :=
  let k0 := if 64 < key.length then sha256 key else key
  let kp := k0 ++ List.replicate (64 - k0.length) 0
  sha256 ((kp.map (Nat.xor 0x5c)) ++ sha256 ((kp.map (Nat.xor 0x36)) ++ msg))

/-- The PBKDF2 block function `F(P, S, c, i) = U_1 xor ... xor U_c`. -/
def pbkdf2F (pw salt : List Nat) (c i : Nat) : List Nat :=
  let u1 := hmacSha256 pw (salt ++ be4 i)
  ((List.range (c - 1)).foldl
    (fun p _ =>
      let u := hmacSha256 pw p.2
      (List.zipWith Nat.xor p.1 u, u))
    (u1, u1)).1

/-- RFC-8018 PBKDF2 with HMAC-SHA-256 as the pseudorandom function
(the behaviour of `hashlib.pbkdf2_hmac("sha256", pw, salt, c, dkLen)`). -/
def pbkdf2HmacSha256 (pw salt : List Nat) (c dkLen : Nat) : List Nat :=
  (((List.range ((dkLen + 31) / 32)).map fun j => pbkdf2F pw salt c (j + 1)).flatten).take dkLen

/-- UTF-8 encoding of a passphrase, as byte values (`str.encode("utf-8")`). -/
def utf8Bytes (s : String) : List Nat := s.toUTF8.toList.map (·.toNat)

/-- `derive_key` (vault_crypto.py, lines 49-56): PBKDF2-HMAC-SHA-256 of the
UTF-8 passphrase and the salt, with `PBKDF2_ITERATIONS` iterations and
`KEY_SIZE` output bytes. -/
def derive_key (passphrase : String) (salt : List Nat) : List Nat :=
  pbkdf2HmacSha256 (utf8Bytes passphrase) salt PBKDF2_ITERATIONS KEY_SIZE

/-! ## AES-GCM model

`AES.new(key, AES.MODE_GCM, nonce=..., mac_len=16)` is pycryptodome
library code, external to the repository.  GCM is CTR-mode encryption
(applying a keystream determined by key and nonce, hence an involution)
plus a 16-byte tag computed over the ciphertext; `decrypt_and_verify`
recomputes the tag and raises `ValueError` unless it equals the stored
tag.  The cipher is therefore modelled as an abstract structure with
exactly those properties; every theorem below holds for any instance. -/

structure GCMCipher where
  /-- Keystream application: `encrypt` and the raw `decrypt` of CTR mode. -/
  xcrypt : List Nat → List Nat → List Nat → List Nat
  /-- The 16-byte authentication tag over the ciphertext. -/
  tagOf : List Nat → List Nat → List Nat → List Nat
  /-- CTR keystream application is an involution (xor with the keystream). -/
  xcrypt_invol : ∀ key nonce data, xcrypt key nonce (xcrypt key nonce data) = data
  /-- `mac_len=TAG_SIZE` makes every tag 16 bytes long. -/
  tagOf_length : ∀ key nonce ct, (tagOf key nonce ct).length = TAG_SIZE

/-- `encrypt_vault` (vault_crypto.py, lines 59-68).  The fresh random
`salt`/`nonce` produced by `secrets.token_bytes` are explicit arguments;
`cipher.encrypt_and_digest` is the keystream application followed by the
tag over the ciphertext. -/
def encrypt_vault (C : GCMCipher) (salt nonce : List Nat) (plaintext : List Nat)
    (passphrase : String) : List Nat :=
  let key := derive_key passphrase salt
  let ciphertext := C.xcrypt key nonce plaintext
  let tag := C.tagOf key nonce ciphertext
  (VaultPayload.mk salt nonce tag ciphertext).to_bytes

/-- `decrypt_vault` (vault_crypto.py, lines 71-81).  The envelope parse
error propagates; `decrypt_and_verify` recomputes the tag over the
ciphertext and raises `ValueError` on mismatch, which the source turns
into the return value `("", False)`; on success the decoded plaintext is
returned with `True`. -/
def decrypt_vault (C : GCMCipher) (blob : List Nat) (passphrase : String) :
    Except String (List Nat × Bool) :=
  match VaultPayload.from_bytes blob with
  | .error e => .error e
  | .ok payload =>
    let key := derive_key passphrase payload.salt
    if C.tagOf key payload.nonce payload.ciphertext = payload.tag then
      .ok (C.xcrypt key payload.nonce payload.ciphertext, true)
    else
      .ok ([], false)

/-! ## JSON documents

The decrypted plaintext is parsed with `json.loads`.  The store operates
on the parsed document, modelled by `Json` below; Python dicts are
association lists in insertion order (keys unique, as `json.loads`
produces), numbers are restricted to the integers this vault format uses. -/

inductive Json where
  | null : Json
  | bool : Bool → Json
  | num : Int → Json
  | str : String → Json
  | arr : List Json → Json
  | obj : List (String × Json) → Json

/-- Python dict lookup `d.get(k)` on an association list. -/
def jLookup (k : String) (fs : List (String × Json)) : Option Json :=
  (fs.find? fun p => p.1 == k).map (·.2)

/-- Lookup on a document known to be an object. -/
def jLookupDoc (k : String) : Json → Option Json
  | .obj fs => jLookup k fs
  | _ => none

/-- Python truthiness of a parsed JSON value. -/
def pyTruthy : Json → Bool
  | .null => false
  | .bool b => b
  | .num n => n != 0
  | .str s => s != ""
  | .arr l => !l.isEmpty
  | .obj l => !l.isEmpty

/-- `a or b` where `a` is an optional dict value (`None` when missing). -/
def pyOrJ (a : Option Json) (b : Json) : Json :=
  match a with
  | some j => if pyTruthy j then j else b
  | none => b

/-- `int(v)` on a parsed JSON value: `some` on success, `none` when the
Python call raises `TypeError`/`ValueError`. -/
def pyInt : Json → Option Int
  | .num n => some n
  | .str s => s.toInt?
  | .bool b => some (if b then 1 else 0)
  | _ => none

/-- The string stored in a recognized entry field.  The document schema
keeps the recognized per-record fields string-typed; non-string values
are collapsed to `""` by the model. -/
def asStr : Json → String
  | .str s => s
  | _ => ""

/-! ## VaultEntry and VaultStore (vault_tui_textual.py, lines 43-171) -/

structure VaultEntry where
  id : Option Int := none
  serviceName : String := ""
  username : String := ""
  password : String := ""
  notes : String := ""
  order : Int := 0
deriving DecidableEq

/-- The store state: the `id -> entry` dict (as a list of entries in
insertion order, every stored entry keyed by its own `id` field), the
monotone id counter and the unrecognized top-level document fields. -/
structure VaultStore where
  entries : List VaultEntry
  nextId : Int
  extras : List (String × Json)

/-- The store of a missing vault file: `load` returns immediately. -/
def emptyStore : VaultStore := ⟨[], 1, []⟩

/-- Python `enumerate` with explicit start index. -/
def pyEnumFrom : Nat → List α → List (Nat × α)
  | _, [] => []
  | i, a :: t => (i, a) :: pyEnumFrom (i + 1) t

def pyEnum (l : List α) : List (Nat × α) := pyEnumFrom 0 l

/-- `self._entries[entry.id] = entry`: replace in place when the key is
present, append otherwise (Python dicts keep insertion order). -/
def setEntry (es : List VaultEntry) (e : VaultEntry) : List VaultEntry :=
  if es.any fun x => x.id == e.id then
    es.map fun x => if x.id == e.id then e else x
  else
    es ++ [e]

/-- `e.id or 0`: the sort tie-breaker (`None` and `0` are both falsy). -/
def idOr0 (e : VaultEntry) : Int := e.id.getD 0

/-- The comparison underlying `sorted(..., key=lambda e: (e.order, e.id or 0))`. -/
def entryLeB (a b : VaultEntry) : Bool :=
  decide (a.order < b.order) || (a.order == b.order && decide (idOr0 a ≤ idOr0 b))

/-- Stable insertion into a sorted list (keeps earlier elements first on ties). -/
def insOne (le : α → α → Bool) (a : α) : List α → List α
  | [] => [a]
  | b :: t => if le a b then a :: b :: t else b :: insOne le a t

/-- Stable insertion sort; `sorted` in Python is also stable, and two stable
sorts with the same total preorder return the same list. -/
def insSort (le : α → α → Bool) : List α → List α
  | [] => []
  | a :: t => insOne le a (insSort le t)

/-- `VaultStore.all`: entries sorted by `(order, id or 0)`. -/
def VaultStore.all (s : VaultStore) : List VaultEntry :=
  insSort entryLeB s.entries

/-- `max((e.order for e in ...), default=-1)`. -/
def VaultStore.maxOrder (s : VaultStore) : Int :=
  match s.entries.map (·.order) with
  | [] => -1
  | o :: os => os.foldl max o

/-- `VaultStore.add` (lines 136-145): assign the counter to an unset id,
place at the end (`max_order + 1`), insert, advance the counter.  Returns
the stored entry together with the new store (the Python method mutates
and returns the entry).  `save()` is persistence only and does not change
the in-memory state. -/
def VaultStore.add (s : VaultStore) (entry : VaultEntry) : VaultEntry × VaultStore :=
  let e1 := match entry.id with
    | none => { entry with id := some s.nextId }
    | some _ => entry
  let e2 := { e1 with order := s.maxOrder + 1 }
  let nextId' := match e2.id with
    | some i => max s.nextId (i + 1)
    | none => s.nextId
  (e2, { s with entries := setEntry s.entries e2, nextId := nextId' })

/-- `VaultStore.update` (lines 147-151): raises `ValueError` when the id is
unset, otherwise stores the entry wholesale under its id (inserting a new
key when the id is unknown — the dict assignment does not check presence). -/
def VaultStore.updateE (s : VaultStore) (entry : VaultEntry) : Except String VaultStore :=
  match entry.id with
  | none => .error "Cannot update entry without id"
  | some _ => .ok { s with entries := setEntry s.entries entry }

/-- `VaultStore.delete` (lines 153-156): `if entry_id in self._entries: del ...`;
an absent id leaves the store untouched and raises nothing. -/
def VaultStore.deleteE (s : VaultStore) (entryId : Int) : Except String VaultStore :=
  .ok (if s.entries.any fun e => e.id == some entryId then
        { s with entries := s.entries.filter fun e => !(e.id == some entryId) }
      else s)

/-- In-place swap of two positions of a list (both in bounds in every use). -/
def swapAt (l : List α) (i j : Nat) : List α :=
  match l[i]?, l[j]? with
  | some a, some b => (l.set i b).set j a
  | _, _ => l

/-- `VaultStore.reorder` (lines 158-171): locate the id in the
`(order, id)`-sorted sequence (`idx_map` is a dict comprehension, so with
duplicate ids the last position would win); unknown id or an out-of-bounds
target is a silent no-op; otherwise swap and renumber every entry's
`order` to its dense index, writing each entry back under its id. -/
def VaultStore.reorder (s : VaultStore) (entryId : Int) (delta : Int) : VaultStore :=
  let items := s.all
  match ((pyEnum items).filter fun p => p.2.id == some entryId).getLast? with
  | none => s
  | some p =>
    let idx := p.1
    let newIdx : Int := (idx : Int) + delta
    if newIdx < 0 ∨ (items.length : Int) ≤ newIdx then s
    else
      let renum := (pyEnum (swapAt items idx newIdx.toNat)).map
        fun q => { q.2 with order := (q.1 : Int) }
      let entries' := s.entries.map fun x => ((renum.find? fun r => r.id == x.id).getD x)
      { s with entries := entries' }

/-- Case-insensitive sort key `(e.serviceName or "").lower()`. -/
def sortKey (e : VaultEntry) : String := e.serviceName.toLower

/-- `action_sort_entries` (vault_tui_textual.py, lines 290-300): resort all
entries by case-insensitive title (direction from the toggled flag),
reassign `order` to the dense index, write each entry back under its id.
Python's `sorted(..., reverse=True)` is stable, so ties keep their
original relative order in both directions. -/
def VaultStore.sortEntries (s : VaultStore) (desc : Bool) : VaultStore :=
  let le : VaultEntry → VaultEntry → Bool := fun a b =>
    if desc then !decide (sortKey a < sortKey b) else !decide (sortKey b < sortKey a)
  let renum := (pyEnum (insSort le s.all)).map
    fun q => if q.2.id.isSome then { q.2 with order := (q.1 : Int) } else q.2
  let entries' := s.entries.map
    fun x => if x.id.isSome then ((renum.find? fun r => r.id == x.id).getD x) else x
  { s with entries := entries' }

/-! ## VaultStore.load / VaultStore.save at the document level
(vault_tui_textual.py, lines 89-114 and 116-127) -/

/-- One iteration of the entry loop in `load`: the enumerated index is the
`order` fallback; `item.get` on a non-dict raises `AttributeError`. -/
def loadEntryStep (acc : List VaultEntry × Int) (p : Nat × Json) :
    Except String (List VaultEntry × Int) :=
  match p.2 with
  | .obj fs =>
    let parsed_id : Option Int := (jLookup "id" fs).bind pyInt
    let parsed_order : Int := ((jLookup "order" fs).bind pyInt).getD (Int.ofNat p.1)
    let entry : VaultEntry :=
      { id := parsed_id
      , serviceName := asStr (pyOrJ (jLookup "serviceName" fs) (pyOrJ (jLookup "title" fs) (.str "")))
      , username := asStr ((jLookup "username" fs).getD (.str ""))
      , password := asStr ((jLookup "password" fs).getD (.str ""))
      , notes := asStr ((jLookup "notes" fs).getD (.str ""))
      , order := parsed_order }
    let entry' := match entry.id with
      | none => { entry with id := some acc.2 }
      | some _ => entry
    let nextId' := match entry'.id with
      | some i => max acc.2 (i + 1)
      | none => acc.2
    .ok (setEntry acc.1 entry', nextId')
  | _ => .error "AttributeError"

def loadEntryLoop : List (Nat × Json) → List VaultEntry × Int →
    Except String (List VaultEntry × Int)
  | [], acc => .ok acc
  | p :: rest, acc =>
    match loadEntryStep acc p with
    | .ok acc' => loadEntryLoop rest acc'
    | .error e => .error e

/-- `data.get("entries") if isinstance(data, dict) else data`. -/
def docEntriesJ : Json → Option Json
  | .obj fs => jLookup "entries" fs
  | doc => some doc

/-- The unrecognized top-level fields kept by `load`. -/
def docExtras : Json → List (String × Json)
  | .obj fs => fs.filter fun p => p.1 != "entries"
  | _ => []

/-- `VaultStore.load` applied to an already-decrypted, already-parsed
document: reject a non-list `entries`, collect top-level extras, then run
the entry loop starting from the fresh store state (`{}`, counter 1). -/
def loadStore (doc : Json) : Except String VaultStore :=
  match docEntriesJ doc with
  | some (.arr items) =>
    match loadEntryLoop (pyEnum items) ([], 1) with
    | .ok (es, ni) => .ok ⟨es, ni, docExtras doc⟩
    | .error e => .error e
  | _ => .error "Invalid vault format"

/-- `asdict(e)` plus the `title` mirror of `serviceName` added by `save`. -/
def entryJson (e : VaultEntry) : Json :=
  .obj [("id", match e.id with | some i => .num i | none => .null),
        ("serviceName", .str e.serviceName), ("username", .str e.username),
        ("password", .str e.password), ("notes", .str e.notes),
        ("order", .num e.order), ("title", .str e.serviceName)]

/-- `VaultStore.save` viewed as the document it serializes and encrypts:
`{"entries": [...], **extras}`. -/
def saveDoc (s : VaultStore) : Json :=
  .obj (("entries", .arr (s.all.map entryJson)) :: s.extras)

/-! ## Operation sequences over the store -/

inductive StoreOp where
  | add : VaultEntry → StoreOp
  | update : VaultEntry → StoreOp
  | delete : Int → StoreOp
  | reorder : Int → Int → StoreOp
  | sort : Bool → StoreOp

/-- The state reached after one call.  A raising `update` (unset id) leaves
the state unchanged, matching the Python exception thrown before any
mutation. -/
def applyOp (s : VaultStore) : StoreOp → VaultStore
  | .add e => (s.add e).2
  | .update e => match s.updateE e with | .ok s' => s' | .error _ => s
  | .delete k => match s.deleteE k with | .ok s' => s' | .error _ => s
  | .reorder k d => s.reorder k d
  | .sort desc => s.sortEntries desc

def applyOps (s : VaultStore) (ops : List StoreOp) : VaultStore :=
  ops.foldl applyOp s

/-- All ids in the store are set and pairwise distinct. -/
@[reducible] def uniqueIds (s : VaultStore) : Prop :=
  (∀ e ∈ s.entries, e.id.isSome) ∧ (s.entries.map (·.id)).Nodup

/-- The multiset of `order` values is exactly `{0, ..., n-1}`. -/
@[reducible] def denseOrders (s : VaultStore) : Prop :=
  List.Perm (s.entries.map (·.order)) ((List.range s.entries.length).map Int.ofNat)

/-- Every stored id is below the counter. -/
def idBound (s : VaultStore) : Prop :=
  ∀ e ∈ s.entries, ∀ k, e.id = some k → k < s.nextId

/-- The operations that keep `order` values dense: adds of fresh entries
(unset id), reorders and sorts. -/
def densePreserving : StoreOp → Bool
  | .add e => e.id == none
  | .update _ => false
  | .delete _ => false
  | .reorder _ _ => true
  | .sort _ => true

/-- The spec's description of a reorder result: the `(order, id)`-sorted
sequence with positions `i` and `j` swapped and every entry's `order`
renormalized to its dense index. -/
def reorderSpec (items : List VaultEntry) (i j : Nat) : List VaultEntry :=
  (pyEnum (swapAt items i j)).map fun q => { q.2 with order := (q.1 : Int) }

/-- The spec's stated `FormatError` condition: blob shorter than the minimum
header, or magic absent with a ciphertext length that is not a positive
multiple of 16 (the legacy check), or empty ciphertext. -/
def specFormatError (blob : List Nat) : Bool :=
  decide (blob.length < 48) ||
    (!(blob.take 4 == MAGIC) &&
      !(decide (0 < blob.length - 48) && decide ((blob.length - 48) % 16 = 0))) ||
    (blob.length - 48 == 0)

/-- The value of key `k` inside the first element of a document's
`entries` array (used to observe per-record fields). -/
def firstEntryField (doc : Json) (k : String) : Option Json :=
  match jLookupDoc "entries" doc with
  | some (.arr (e :: _)) => jLookupDoc k e
  | _ => none

/-- Bool-valued success observer for `Except` results. -/
def isOkE : Except ε α → Bool
  | .ok _ => true
  | .error _ => false

/-! ## Generic helper lemmas -/

theorem zipWith_xor_invol : ∀ (d ks : List Nat), ks.length = d.length →
    List.zipWith Nat.xor (List.zipWith Nat.xor d ks) ks = d := by
  intro d
  induction d with
  | nil => intro ks _; simp
  | cons a t ih =>
    intro ks hks
    cases ks with
    | nil => simp at hks
    | cons k kt =>
      simp only [List.zipWith_cons_cons]
      rw [ih kt (by simpa using hks)]
      exact congrArg (fun z => z :: t) (Nat.xor_cancel_right k a)

/-- A concrete `GCMCipher` instance (xor with a nonce-derived keystream and a
content-derived tag), used to instantiate the universally quantified cipher in
concrete computations. -/
def xorModelCipher : GCMCipher where
  xcrypt := fun _ nonce data =>
    List.zipWith Nat.xor data ((List.range data.length).map fun i => (nonce.foldl (· + ·) 0 + i) % 256)
  tagOf := fun _ nonce ct =>
    (List.range 16).map fun i => (nonce.foldl (· + ·) 0 + ct.foldl (· + ·) 0 + ct.length + i) % 256
  xcrypt_invol := by
    intro key nonce data
    dsimp only
    have hlen : (List.zipWith Nat.xor data
        ((List.range data.length).map fun i => (nonce.foldl (· + ·) 0 + i) % 256)).length
        = data.length := by
      simp [List.length_zipWith]
    rw [hlen]
    exact zipWith_xor_invol data _ (by simp)
  tagOf_length := by intro k n c; simp [TAG_SIZE]

theorem mem_of_getLast_eq_some : ∀ (l : List α) (a : α), l.getLast? = some a → a ∈ l := by
  intro l
  induction l with
  | nil => intro a h; simp at h
  | cons x t ih =>
    intro a h
    cases t with
    | nil => simp_all
    | cons y t' =>
      rw [List.getLast?_cons_cons] at h
      exact List.mem_cons_of_mem x (ih a h)

theorem mem_pyEnumFrom : ∀ (l : List α) (i : Nat) (p : Nat × α),
    p ∈ pyEnumFrom i l → p.2 ∈ l ∧ i ≤ p.1 ∧ p.1 < i + l.length := by
  intro l
  induction l with
  | nil => intro i p h; simp [pyEnumFrom] at h
  | cons a t ih =>
    intro i p h
    simp only [pyEnumFrom, List.mem_cons] at h
    rcases h with h | h
    · subst h; simp
    · obtain ⟨h1, h2, h3⟩ := ih (i + 1) p h
      exact ⟨List.mem_cons_of_mem a h1, by omega, by simp; omega⟩

theorem map_fst_pyEnumFrom : ∀ (l : List α) (i : Nat),
    (pyEnumFrom i l).map Prod.fst = List.range' i l.length := by
  intro l
  induction l with
  | nil => intro i; simp [pyEnumFrom]
  | cons a t ih =>
    intro i
    simp only [pyEnumFrom, List.map_cons, List.length_cons, List.range'_succ]
    rw [ih]

theorem map_snd_pyEnumFrom (g : α → β) : ∀ (l : List α) (i : Nat),
    (pyEnumFrom i l).map (fun q => g q.2) = l.map g := by
  intro l
  induction l with
  | nil => intro i; simp [pyEnumFrom]
  | cons a t ih =>
    intro i
    simp only [pyEnumFrom, List.map_cons]
    rw [ih]

theorem filter_pyEnumFrom_nil (p : α → Bool) : ∀ (l : List α) (i : Nat),
    (∀ x ∈ l, p x = false) →
    (pyEnumFrom i l).filter (fun q => p q.2) = [] := by
  intro l
  induction l with
  | nil => intro i _; simp [pyEnumFrom]
  | cons a t ih =>
    intro i h
    simp only [pyEnumFrom, List.filter_cons]
    rw [h a (List.mem_cons_self a t)]
    simp only [Bool.false_eq_true, if_false]
    exact ih (i + 1) fun x hx => h x (List.mem_cons_of_mem a hx)

theorem insOne_perm (le : α → α → Bool) (a : α) : ∀ (l : List α),
    List.Perm (insOne le a l) (a :: l) := by
  intro l
  induction l with
  | nil => simp [insOne]
  | cons b t ih =>
    simp only [insOne]
    by_cases h : le a b
    · simp [h]
    · simp only [h, Bool.false_eq_true, if_false]
      exact ((ih.cons b).trans (List.Perm.swap a b t))

theorem insSort_perm (le : α → α → Bool) : ∀ (l : List α),
    List.Perm (insSort le l) l := by
  intro l
  induction l with
  | nil => simp [insSort]
  | cons a t ih =>
    simp only [insSort]
    exact (insOne_perm le a (insSort le t)).trans (ih.cons a)

theorem get_cons_set_perm : ∀ (t : List α) (j : Nat) (hj : j < t.length) (x : α),
    List.Perm (t.get ⟨j, hj⟩ :: t.set j x) (x :: t) := by
  intro t
  induction t with
  | nil => intro j hj; simp at hj
  | cons y t' ih =>
    intro j hj x
    cases j with
    | zero => simpa using List.Perm.swap x y t'
    | succ k =>
      simp only [List.get_cons_succ, List.set_cons_succ]
      have h1 : List.Perm (t'.get ⟨k, by simpa using hj⟩ :: y :: t'.set k x)
          (y :: t'.get ⟨k, by simpa using hj⟩ :: t'.set k x) :=
        List.Perm.swap y _ _
      refine h1.trans ?_
      exact ((ih k (by simpa using hj) x).cons y).trans (List.Perm.swap x y t')

theorem swapAt_perm : ∀ (l : List α) (i j : Nat), i < l.length → j < l.length →
    List.Perm (swapAt l i j) l := by
  intro l i
  induction l generalizing i with
  | nil => intro j hi; simp at hi
  | cons a t ih =>
    intro j hi hj
    cases i with
    | zero =>
      cases j with
      | zero => simp [swapAt]
      | succ k =>
        have hk : k < t.length := by simpa using hj
        simp only [swapAt, List.getElem?_cons_zero, List.getElem?_cons_succ,
          List.getElem?_eq_getElem hk, List.set_cons_zero, List.set_cons_succ]
        exact get_cons_set_perm t k hk a
    | succ m =>
      cases j with
      | zero =>
        have hm : m < t.length := by simpa using hi
        simp only [swapAt, List.getElem?_cons_zero, List.getElem?_cons_succ,
          List.getElem?_eq_getElem hm, List.set_cons_zero, List.set_cons_succ]
        exact get_cons_set_perm t m hm a
      | succ k =>
        have hm : m < t.length := by simpa using hi
        have hk : k < t.length := by simpa using hj
        have hstep : swapAt (a :: t) (m + 1) (k + 1) = a :: swapAt t m k := by
          simp only [swapAt, List.getElem?_cons_succ,
            List.getElem?_eq_getElem hm, List.getElem?_eq_getElem hk,
            List.set_cons_succ]
        rw [hstep]
        exact (ih m k hm hk).cons a

theorem swapAt_length : ∀ (l : List α) (i j : Nat), (swapAt l i j).length = l.length := by
  intro l i j
  unfold swapAt
  cases h1 : l[i]? <;> cases h2 : l[j]? <;> simp

/-- Splitting a list of entries around the first occurrence of an id. -/
theorem find_id_split : ∀ (rs : List VaultEntry) (k : Option Int),
    (∃ r ∈ rs, r.id = k) →
    ∃ l1 r0 l2, rs = l1 ++ r0 :: l2 ∧ r0.id = k ∧ (∀ x ∈ l1, x.id ≠ k) ∧
      rs.find? (fun r => r.id == k) = some r0 := by
  intro rs
  induction rs with
  | nil => intro k h; simp at h
  | cons a t ih =>
    intro k h
    by_cases ha : a.id = k
    · exact ⟨[], a, t, by simp, ha, by simp, by simp [List.find?_cons_of_pos, ha]⟩
    · have h' : ∃ r ∈ t, r.id = k := by
        rcases h with ⟨r, hr, hrk⟩
        rcases List.mem_cons.mp hr with rfl | hrt
        · exact absurd hrk ha
        · exact ⟨r, hrt, hrk⟩
      obtain ⟨l1, r0, l2, heq, hid, hl1, hfind⟩ := ih k h'
      refine ⟨a :: l1, r0, l2, by simp [heq], hid, ?_, ?_⟩
      · intro x hx
        rcases List.mem_cons.mp hx with rfl | hxl1
        · exact ha
        · exact hl1 x hxl1
      · rw [List.find?_cons_of_neg _ (by simpa using ha)]
        exact hfind

/-- Writing back a permutation of the entries under their (unique) ids
produces exactly that permutation of the dict values. -/
theorem map_find_getD_perm : ∀ (es rs : List VaultEntry),
    (es.map (·.id)).Nodup →
    List.Perm (rs.map (·.id)) (es.map (·.id)) →
    List.Perm (es.map fun x => ((rs.find? fun r => r.id == x.id).getD x)) rs := by
  intro es
  induction es with
  | nil =>
    intro rs _ hperm
    simp only [List.map_nil] at hperm ⊢
    have : rs.map (·.id) = [] := hperm.eq_nil
    exact (List.map_eq_nil_iff.mp this) ▸ List.Perm.refl []
  | cons e es' ih =>
    intro rs hnd hperm
    have hmem : e.id ∈ rs.map (·.id) := hperm.mem_iff.mpr (by simp)
    have hex : ∃ r ∈ rs, r.id = e.id := by
      rcases List.mem_map.mp hmem with ⟨r, hr, hrk⟩
      exact ⟨r, hr, hrk⟩
    obtain ⟨l1, r0, l2, heq, hid, hl1, hfind⟩ := find_id_split rs e.id hex
    have hnd0 : (e.id :: es'.map (·.id)).Nodup := by simpa using hnd
    have hnd' : (es'.map (·.id)).Nodup := (List.nodup_cons.mp hnd0).2
    have heidnotin : e.id ∉ es'.map (·.id) := (List.nodup_cons.mp hnd0).1
    -- the tail entries look up the same results in rs with r0 removed
    have htail : es'.map (fun x => ((rs.find? fun r => r.id == x.id).getD x)) =
        es'.map (fun x => (((l1 ++ l2).find? fun r => r.id == x.id).getD x)) := by
      apply List.map_congr_left
      intro x hx
      have hxid : x.id ≠ e.id := by
        intro hcontra
        exact heidnotin (hcontra ▸ List.mem_map_of_mem (·.id) hx)
      have hr0 : (fun r => r.id == x.id) r0 = false := by
        simp only [beq_eq_false_iff_ne, ne_eq, hid]
        exact fun hcontra => hxid hcontra.symm
      rw [heq]
      rw [List.find?_append, List.find?_append]
      congr 1
      rw [List.find?_cons_of_neg _ (by simp_all)]
    have hperm' : List.Perm ((l1 ++ l2).map (·.id)) (es'.map (·.id)) := by
      have h1 : List.Perm (rs.map (·.id)) (r0.id :: (l1 ++ l2).map (·.id)) := by
        rw [heq]
        have hmid := (@List.perm_middle VaultEntry r0 l1 l2).map (·.id)
        simp only [List.map_append, List.map_cons] at hmid ⊢
        exact hmid
      have h2 : List.Perm (r0.id :: (l1 ++ l2).map (·.id)) (e.id :: es'.map (·.id)) :=
        h1.symm.trans (by exact hperm)
      rw [hid] at h2
      exact h2.cons_inv
    have hihres := ih (l1 ++ l2) hnd' hperm'
    simp only [List.map_cons, hfind, Option.getD_some, htail]
    refine List.Perm.trans ((hihres).cons r0) ?_
    rw [heq]
    exact List.perm_middle.symm

theorem findIdx_lt_of_id_mem : ∀ (l : List VaultEntry) (k : Int),
    (some k) ∈ l.map (·.id) → l.findIdx (fun x => x.id == some k) < l.length := by
  intro l
  induction l with
  | nil => intro k h; simp at h
  | cons a t ih =>
    intro k h
    rw [List.findIdx_cons]
    rw [List.map_cons] at h
    by_cases ha : a.id = some k
    · simp [ha]
    · have hmem : (some k) ∈ t.map (·.id) := by
        rcases List.mem_cons.mp h with h1 | h1
        · exact absurd h1.symm ha
        · exact h1
      have hfa : (a.id == some k) = false := by simpa using ha
      simp only [hfa, cond_false, List.length_cons]
      exact Nat.succ_lt_succ (ih k hmem)

/-- Under unique ids, the `idx_map` lookup in `reorder` (last matching
position of an enumerate-filter) is the unique matching position. -/
theorem locate_getLast : ∀ (l : List VaultEntry) (k : Int) (start : Nat),
    (l.map (·.id)).Nodup → (some k) ∈ l.map (·.id) →
    ∃ e, ((pyEnumFrom start l).filter fun q => q.2.id == some k).getLast? =
      some (start + l.findIdx (fun x => x.id == some k), e) ∧ e.id = some k := by
  intro l
  induction l with
  | nil => intro k start _ h; simp at h
  | cons a t ih =>
    intro k start hnd hmem
    rw [List.map_cons] at hnd hmem
    by_cases ha : a.id = some k
    · have hnone : ∀ x ∈ t, (x.id == some k) = false := by
        intro x hx
        have hne : some k ∉ t.map (·.id) := by
          have := (List.nodup_cons.mp hnd).1
          rw [ha] at this
          exact this
        simp only [beq_eq_false_iff_ne, ne_eq]
        intro hcontra
        exact hne (hcontra ▸ List.mem_map_of_mem (·.id) hx)
      refine ⟨a, ?_, ha⟩
      simp only [pyEnumFrom, List.filter_cons]
      rw [show (a.id == some k) = true by simpa using ha]
      rw [filter_pyEnumFrom_nil _ t (start + 1) hnone]
      simp [List.findIdx_cons, show (a.id == some k) = true by simpa using ha]
    · have hmem' : (some k) ∈ t.map (·.id) := by
        rcases List.mem_cons.mp hmem with h1 | h1
        · exact absurd h1.symm ha
        · exact h1
      have hnd' : (t.map (·.id)).Nodup := (List.nodup_cons.mp hnd).2
      obtain ⟨e, he, hek⟩ := ih k (start + 1) hnd' hmem'
      refine ⟨e, ?_, hek⟩
      simp only [pyEnumFrom, List.filter_cons]
      rw [show (a.id == some k) = false by simpa using ha]
      simp only [Bool.false_eq_true, if_false]
      rw [he]
      rw [List.findIdx_cons]
      rw [show (a.id == some k) = false by simpa using ha]
      simp only [cond_false]
      have harith : start + 1 + List.findIdx (fun x => x.id == some k) t =
          start + (List.findIdx (fun x => x.id == some k) t + 1) := by omega
      rw [harith]

theorem foldl_max_le_iff : ∀ (l : List Int) (a x : Int),
    l.foldl max a ≤ x ↔ a ≤ x ∧ ∀ b ∈ l, b ≤ x := by
  intro l
  induction l with
  | nil => intro a x; simp
  | cons b t ih =>
    intro a x
    simp only [List.foldl_cons, ih, max_le_iff, List.mem_cons]
    constructor
    · rintro ⟨⟨h1, h2⟩, h3⟩
      exact ⟨h1, fun c hc => by rcases hc with rfl | hc; exact h2; exact h3 c hc⟩
    · rintro ⟨h1, h2⟩
      exact ⟨⟨h1, h2 b (Or.inl rfl)⟩, fun c hc => h2 c (Or.inr hc)⟩

theorem le_foldl_max (l : List Int) (a : Int) :
    a ≤ l.foldl max a ∧ ∀ b ∈ l, b ≤ l.foldl max a :=
  (foldl_max_le_iff l a (l.foldl max a)).mp (le_refl _)

/-- In a store whose `order` values are exactly `0..n-1`, the running
maximum computed by `add` is `n - 1` (also for the empty store: `-1`). -/
theorem maxOrder_of_dense (s : VaultStore) (h : denseOrders s) :
    s.maxOrder = (s.entries.length : Int) - 1 := by
  unfold denseOrders at h
  unfold VaultStore.maxOrder
  have hlen : (s.entries.map (·.order)).length = s.entries.length := List.length_map _ _
  cases hos : s.entries.map (·.order) with
  | nil =>
    have h0 : s.entries.length = 0 := by rw [← hlen, hos]; rfl
    simp [h0]
  | cons o t =>
    rw [hos] at h hlen
    set n := s.entries.length with hn
    have hpos : 1 ≤ n := by
      rcases Nat.eq_zero_or_pos n with h0 | h0
      · rw [h0] at h; simp at h
      · exact h0
    have hub : ∀ b ∈ o :: t, b ≤ (n : Int) - 1 := by
      intro b hb
      have : b ∈ (List.range n).map Int.ofNat := h.mem_iff.mp hb
      rcases List.mem_map.mp this with ⟨j, hj, rfl⟩
      have := List.mem_range.mp hj
      simp only [Int.ofNat_eq_coe]
      omega
    have hlb : ((n : Int) - 1) ∈ o :: t := by
      have hmem : ((n : Int) - 1) ∈ (List.range n).map Int.ofNat := by
        refine List.mem_map.mpr ⟨n - 1, List.mem_range.mpr (by omega), ?_⟩
        simp only [Int.ofNat_eq_coe]
        omega
      exact h.mem_iff.mpr hmem
    have hle : t.foldl max o ≤ (n : Int) - 1 := by
      rw [foldl_max_le_iff]
      exact ⟨hub o (by simp), fun b hb => hub b (List.mem_cons_of_mem o hb)⟩
    have hge : (n : Int) - 1 ≤ t.foldl max o := by
      obtain ⟨h1, h2⟩ := le_foldl_max t o
      rcases List.mem_cons.mp hlb with heq | hmem
      · rw [heq]; exact h1
      · exact h2 _ hmem
    rw [show (match o :: t with | [] => (-1 : Int) | o :: os => os.foldl max o)
        = t.foldl max o from rfl]
    omega

theorem any_id_eq_false_iff (es : List VaultEntry) (i : Option Int) :
    (es.any fun x => x.id == i) = false ↔ i ∉ es.map (·.id) := by
  rw [List.any_eq_false]
  constructor
  · intro h hmem
    rcases List.mem_map.mp hmem with ⟨x, hx, hxi⟩
    have hne : ¬(x.id == i) = true := h x hx
    rw [beq_iff_eq] at hne
    exact hne hxi
  · intro h x hx
    rw [beq_iff_eq]
    intro hcontra
    refine h ?_
    rw [← hcontra]
    exact List.mem_map_of_mem (·.id) hx

theorem setEntry_append (es : List VaultEntry) (e : VaultEntry)
    (h : (es.any fun x => x.id == e.id) = false) : setEntry es e = es ++ [e] := by
  unfold setEntry
  rw [h]
  simp

theorem setEntry_ids_of_any (es : List VaultEntry) (e : VaultEntry)
    (h : (es.any fun x => x.id == e.id) = true) :
    (setEntry es e).map (·.id) = es.map (·.id) := by
  unfold setEntry
  rw [h]
  simp only [if_true, List.map_map]
  apply List.map_congr_left
  intro x _
  by_cases hx : (x.id == e.id) = true
  · simp only [Function.comp_apply, hx, if_true]
    exact (beq_iff_eq.mp hx).symm
  · simp only [Function.comp_apply, hx]
    simp

theorem setEntry_nodup (es : List VaultEntry) (e : VaultEntry)
    (h : (es.map (·.id)).Nodup) : ((setEntry es e).map (·.id)).Nodup := by
  by_cases hany : (es.any fun x => x.id == e.id) = true
  · rw [setEntry_ids_of_any es e hany]; exact h
  · rw [setEntry_append es e (by simpa using hany)]
    have hnotin : e.id ∉ es.map (·.id) :=
      (any_id_eq_false_iff es e.id).mp (by simpa using hany)
    simp only [List.map_append, List.map_cons, List.map_nil]
    rw [List.nodup_append]
    refine ⟨h, List.nodup_singleton _, ?_⟩
    intro a ha
    simp only [List.mem_singleton]
    intro hcontra
    rw [hcontra] at ha
    exact hnotin ha

theorem setEntry_isSome (es : List VaultEntry) (e : VaultEntry)
    (hs : ∀ x ∈ es, x.id.isSome) (he : e.id.isSome) :
    ∀ x ∈ setEntry es e, x.id.isSome := by
  intro x hx
  unfold setEntry at hx
  by_cases hany : (es.any fun y => y.id == e.id) = true
  · rw [hany] at hx
    simp only [if_true] at hx
    rcases List.mem_map.mp hx with ⟨y, hy, rfl⟩
    by_cases hyid : (y.id == e.id) = true
    · simp [hyid, he]
    · simp only [hyid]
      simpa using hs y hy
  · rw [show (es.any fun y => y.id == e.id) = false by simpa using hany] at hx
    simp only [Bool.false_eq_true, if_false] at hx
    rcases List.mem_append.mp hx with h1 | h1
    · exact hs x h1
    · rw [List.mem_singleton.mp h1]; exact he

/-! ## Length facts for the key-derivation chain -/

theorem sha256_length (msg : List Nat) : (sha256 msg).length = 32 := by
  simp [sha256, be4]

theorem hmacSha256_length (key msg : List Nat) : (hmacSha256 key msg).length = 32 := by
  unfold hmacSha256
  exact sha256_length _

theorem pbkdf2_foldl_fst_length (pw : List Nat) :
    ∀ (l : List Nat) (p : List Nat × List Nat), p.1.length = 32 →
    ((l.foldl (fun p _ =>
        let u := hmacSha256 pw p.2
        (List.zipWith Nat.xor p.1 u, u)) p).1).length = 32 := by
  intro l
  induction l with
  | nil => intro p hp; exact hp
  | cons a t ih =>
    intro p hp
    simp only [List.foldl_cons]
    refine ih _ ?_
    simp [List.length_zipWith, hp, hmacSha256_length]

theorem pbkdf2F_length (pw salt : List Nat) (c i : Nat) :
    (pbkdf2F pw salt c i).length = 32 := by
  unfold pbkdf2F
  exact pbkdf2_foldl_fst_length pw _ _ (hmacSha256_length _ _)

theorem pbkdf2_len32 (pw salt : List Nat) (c : Nat) :
    (pbkdf2HmacSha256 pw salt c 32).length = 32 := by
  unfold pbkdf2HmacSha256
  rw [show ((32 + 31) / 32) = 1 by decide]
  have hflat : ((List.range 1).map fun j => pbkdf2F pw salt c (j + 1)).flatten
      = pbkdf2F pw salt c 1 := by
    rw [show List.range 1 = [0] from rfl]
    simp
  rw [hflat]
  simp [List.length_take, pbkdf2F_length]

theorem derive_key_length (passphrase : String) (salt : List Nat) :
    (derive_key passphrase salt).length = 32 :=
  pbkdf2_len32 (utf8Bytes passphrase) salt PBKDF2_ITERATIONS

/-! ## Envelope slicing facts -/

theorem magic_length : MAGIC.length = 4 := by decide

theorem slice_header (s n t c : List Nat)
    (hs : s.length = 16) (hn : n.length = 12) (ht : t.length = 16) :
    (MAGIC ++ s ++ n ++ t ++ c).length = 48 + c.length ∧
    (MAGIC ++ s ++ n ++ t ++ c).take 4 = MAGIC ∧
    ((MAGIC ++ s ++ n ++ t ++ c).drop 4).take 16 = s ∧
    ((MAGIC ++ s ++ n ++ t ++ c).drop 20).take 12 = n ∧
    ((MAGIC ++ s ++ n ++ t ++ c).drop 32).take 16 = t ∧
    (MAGIC ++ s ++ n ++ t ++ c).drop 48 = c := by
  have hB4 : MAGIC ++ s ++ n ++ t ++ c = MAGIC ++ (s ++ n ++ t ++ c) := by
    simp [List.append_assoc]
  have hB20 : MAGIC ++ s ++ n ++ t ++ c = (MAGIC ++ s) ++ (n ++ t ++ c) := by
    simp [List.append_assoc]
  have hB32 : MAGIC ++ s ++ n ++ t ++ c = (MAGIC ++ s ++ n) ++ (t ++ c) := by
    simp [List.append_assoc]
  have hB48 : MAGIC ++ s ++ n ++ t ++ c = (MAGIC ++ s ++ n ++ t) ++ c := rfl
  refine ⟨?_, ?_, ?_, ?_, ?_, ?_⟩
  · simp [magic_length, hs, hn, ht]
    omega
  · rw [hB4]
    exact List.take_left' magic_length
  · rw [hB4, List.drop_left' magic_length]
    rw [show s ++ n ++ t ++ c = s ++ (n ++ t ++ c) by simp [List.append_assoc]]
    exact List.take_left' hs
  · rw [hB20, List.drop_left' (by simp [magic_length, hs])]
    rw [show n ++ t ++ c = n ++ (t ++ c) by simp [List.append_assoc]]
    exact List.take_left' hn
  · rw [hB32, List.drop_left' (by simp [magic_length, hs, hn])]
    exact List.take_left' ht
  · rw [hB48]
    exact List.drop_left' (by simp [magic_length, hs, hn, ht])

/-- Decoding the concatenated layout with well-formed field lengths. -/
theorem from_bytes_concat (s n t c : List Nat)
    (hs : s.length = 16) (hn : n.length = 12) (ht : t.length = 16) :
    VaultPayload.from_bytes (MAGIC ++ s ++ n ++ t ++ c) = .ok ⟨s, n, t, c⟩ := by
  obtain ⟨hlen, htake, hsalt, hnonce, htag, hct⟩ := slice_header s n t c hs hn ht
  simp only [VaultPayload.from_bytes, magic_length, SALT_SIZE, NONCE_SIZE, TAG_SIZE]
  rw [if_neg (by rw [hlen]; omega)]
  rw [if_neg (by rw [htake]; simp)]
  rw [show (4 : Nat) + 16 = 20 from rfl, show (4 : Nat) + 16 + 12 = 32 from rfl,
      show (4 : Nat) + 16 + 12 + 16 = 48 from rfl]
  rw [hsalt, hnonce, htag, hct]

/-- Decoding an encoded payload with well-formed field lengths recovers it. -/
theorem from_bytes_of_to_bytes (p : VaultPayload)
    (hs : p.salt.length = SALT_SIZE) (hn : p.nonce.length = NONCE_SIZE)
    (ht : p.tag.length = TAG_SIZE) :
    VaultPayload.from_bytes p.to_bytes = .ok p := by
  have hb : p.to_bytes = MAGIC ++ p.salt ++ p.nonce ++ p.tag ++ p.ciphertext := rfl
  rw [hb, from_bytes_concat p.salt p.nonce p.tag p.ciphertext hs hn ht]

/-! ## Store-level lemmas -/

theorem all_perm (s : VaultStore) : List.Perm s.all s.entries :=
  insSort_perm entryLeB s.entries

theorem all_ids_perm (s : VaultStore) :
    List.Perm (s.all.map (·.id)) (s.entries.map (·.id)) :=
  (all_perm s).map (·.id)

theorem writeback_id (renum : List VaultEntry) (x : VaultEntry) :
    (((renum.find? fun r => r.id == x.id).getD x)).id = x.id := by
  cases hf : renum.find? (fun r => r.id == x.id) with
  | none => simp
  | some r =>
    have := List.find?_some hf
    simp only [Option.getD_some]
    exact beq_iff_eq.mp this

theorem map_ids_writeback (es renum : List VaultEntry) :
    ((es.map fun x => ((renum.find? fun r => r.id == x.id).getD x)).map (·.id)) =
      es.map (·.id) := by
  rw [List.map_map]
  apply List.map_congr_left
  intro x _
  exact writeback_id renum x

theorem map_ids_writeback_guarded (es renum : List VaultEntry) :
    ((es.map fun x =>
        if x.id.isSome then ((renum.find? fun r => r.id == x.id).getD x) else x).map (·.id)) =
      es.map (·.id) := by
  rw [List.map_map]
  apply List.map_congr_left
  intro x _
  by_cases hx : x.id.isSome
  · simp only [Function.comp_apply, hx, if_true]
    exact writeback_id renum x
  · simp [Function.comp_apply, hx]

theorem reorder_ids (s : VaultStore) (k d : Int) :
    (s.reorder k d).entries.map (·.id) = s.entries.map (·.id) := by
  unfold VaultStore.reorder
  cases hlast : ((pyEnum s.all).filter fun p => p.2.id == some k).getLast? with
  | none => simp [hlast]
  | some p =>
    simp only [hlast]
    split
    · rfl
    · simp only
      exact map_ids_writeback s.entries _

theorem reorder_nextId (s : VaultStore) (k d : Int) :
    (s.reorder k d).nextId = s.nextId := by
  unfold VaultStore.reorder
  cases hlast : ((pyEnum s.all).filter fun p => p.2.id == some k).getLast? with
  | none => simp [hlast]
  | some p =>
    simp only [hlast]
    split <;> rfl

theorem reorder_extras (s : VaultStore) (k d : Int) :
    (s.reorder k d).extras = s.extras := by
  unfold VaultStore.reorder
  cases hlast : ((pyEnum s.all).filter fun p => p.2.id == some k).getLast? with
  | none => simp [hlast]
  | some p =>
    simp only [hlast]
    split <;> rfl

theorem sortEntries_ids (s : VaultStore) (desc : Bool) :
    (s.sortEntries desc).entries.map (·.id) = s.entries.map (·.id) := by
  unfold VaultStore.sortEntries
  exact map_ids_writeback_guarded s.entries _

theorem isSome_of_ids_eq (es es' : List VaultEntry)
    (hids : es'.map (·.id) = es.map (·.id)) (hs : ∀ x ∈ es, x.id.isSome) :
    ∀ x ∈ es', x.id.isSome := by
  intro x hx
  have hmem : x.id ∈ es'.map (·.id) := List.mem_map_of_mem (·.id) hx
  rw [hids] at hmem
  rcases List.mem_map.mp hmem with ⟨y, hy, hxy⟩
  rw [← hxy]
  exact hs y hy

/-- `add` always stores an entry with a set id. -/
theorem add_id_isSome (s : VaultStore) (e : VaultEntry) :
    (s.add e).1.id.isSome := by
  unfold VaultStore.add
  cases he : e.id <;> simp [he]

theorem add_entries (s : VaultStore) (e : VaultEntry) :
    (s.add e).2.entries = setEntry s.entries (s.add e).1 := by
  unfold VaultStore.add
  cases he : e.id <;> simp [he]

theorem uniqueIds_applyOp (s : VaultStore) (op : StoreOp) (hu : uniqueIds s) :
    uniqueIds (applyOp s op) := by
  obtain ⟨hsome, hnd⟩ := hu
  cases op with
  | add e =>
    constructor
    · show ∀ x ∈ (s.add e).2.entries, x.id.isSome
      rw [add_entries]
      exact setEntry_isSome s.entries _ hsome (add_id_isSome s e)
    · show ((s.add e).2.entries.map (·.id)).Nodup
      rw [add_entries]
      exact setEntry_nodup s.entries _ hnd
  | update e =>
    cases he : e.id with
    | none => simpa [applyOp, VaultStore.updateE, he] using ⟨hsome, hnd⟩
    | some i =>
      have hres : applyOp s (.update e) = { s with entries := setEntry s.entries e } := by
        simp [applyOp, VaultStore.updateE, he]
      rw [hres]
      exact ⟨setEntry_isSome s.entries e hsome (by simp [he]),
             setEntry_nodup s.entries e hnd⟩
  | delete k =>
    have hres : applyOp s (.delete k) =
        if (s.entries.any fun e => e.id == some k) then
          { s with entries := s.entries.filter fun e => !(e.id == some k) }
        else s := rfl
    rw [hres]
    by_cases hc : (s.entries.any fun e => e.id == some k) = true
    · rw [if_pos hc]
      refine ⟨?_, ?_⟩
      · intro x hx
        exact hsome x (List.mem_of_mem_filter hx)
      · exact List.Nodup.sublist
          ((List.filter_sublist s.entries).map (fun x => x.id)) hnd
    · rw [if_neg hc]
      exact ⟨hsome, hnd⟩
  | reorder k d =>
    refine ⟨?_, ?_⟩
    · exact isSome_of_ids_eq s.entries _ (reorder_ids s k d) hsome
    · show ((s.reorder k d).entries.map (·.id)).Nodup
      rw [reorder_ids s k d]
      exact hnd
  | sort desc =>
    refine ⟨?_, ?_⟩
    · exact isSome_of_ids_eq s.entries _ (sortEntries_ids s desc) hsome
    · show ((s.sortEntries desc).entries.map (·.id)).Nodup
      rw [sortEntries_ids s desc]
      exact hnd

theorem renum_ids (l : List VaultEntry) :
    (((pyEnum l).map fun q => { q.2 with order := (q.1 : Int) }).map (·.id)) =
      l.map (·.id) := by
  rw [List.map_map]
  rw [show ((fun (e : VaultEntry) => e.id) ∘
      fun (q : Nat × VaultEntry) => { q.2 with order := (q.1 : Int) }) =
      (fun (q : Nat × VaultEntry) => q.2.id) from rfl]
  rw [pyEnum]
  exact map_snd_pyEnumFrom (·.id) l 0

theorem map_order_renum (l : List VaultEntry) :
    (((pyEnum l).map fun q => { q.2 with order := (q.1 : Int) }).map (·.order)) =
      (List.range l.length).map Int.ofNat := by
  rw [List.map_map]
  rw [show ((fun (e : VaultEntry) => e.order) ∘
      fun (q : Nat × VaultEntry) => { q.2 with order := (q.1 : Int) }) =
      (Int.ofNat ∘ Prod.fst) from rfl]
  rw [← List.map_map, pyEnum, map_fst_pyEnumFrom, ← List.range_eq_range']

theorem reorder_not_mem (s : VaultStore) (k d : Int)
    (h : (some k) ∉ s.entries.map (·.id)) : s.reorder k d = s := by
  have hnone : ∀ x ∈ s.all, (x.id == some k) = false := by
    intro x hx
    have hmem : x.id ∈ s.entries.map (·.id) :=
      List.mem_map_of_mem (·.id) ((all_perm s).mem_iff.mp hx)
    rw [beq_eq_false_iff_ne]
    intro hcontra
    rw [hcontra] at hmem
    exact h hmem
  simp only [VaultStore.reorder, pyEnum]
  rw [filter_pyEnumFrom_nil _ s.all 0 hnone]
  rfl

/-- The branch structure of `reorder` for a present id under unique ids:
locate the (unique) position, no-op when out of bounds, otherwise write
back the swap-and-renumber result. -/
theorem reorder_locate (s : VaultStore) (k d : Int)
    (hu : uniqueIds s) (hm : (some k) ∈ s.entries.map (·.id)) :
    s.reorder k d =
      (if ((s.all.findIdx fun x => x.id == some k : Nat) : Int) + d < 0 ∨
          (s.all.length : Int) ≤ ((s.all.findIdx fun x => x.id == some k : Nat) : Int) + d
       then s
       else { s with entries := s.entries.map fun x =>
          (((reorderSpec s.all (s.all.findIdx fun x => x.id == some k)
              (((s.all.findIdx fun x => x.id == some k : Nat) : Int) + d).toNat).find?
            fun r => r.id == x.id).getD x) }) := by
  have hnd' : (s.all.map (·.id)).Nodup := ((all_ids_perm s).symm).nodup hu.2
  have hm' : (some k) ∈ s.all.map (·.id) := (all_ids_perm s).mem_iff.mpr hm
  obtain ⟨e, hlast, hek⟩ := locate_getLast s.all k 0 hnd' hm'
  rw [Nat.zero_add] at hlast
  simp only [VaultStore.reorder, reorderSpec, pyEnum]
  rw [hlast]

theorem dense_of_writeback (es renum : List VaultEntry) (n : Nat)
    (hnd : (es.map (·.id)).Nodup)
    (hids : List.Perm (renum.map (·.id)) (es.map (·.id)))
    (horders : renum.map (·.order) = (List.range n).map Int.ofNat)
    (hlen : es.length = n) :
    List.Perm ((es.map fun x => ((renum.find? fun r => r.id == x.id).getD x)).map (·.order))
      ((List.range ((es.map fun x =>
        ((renum.find? fun r => r.id == x.id).getD x)).length)).map Int.ofNat) := by
  have hperm := map_find_getD_perm es renum hnd hids
  have horders2 := hperm.map (·.order)
  rw [horders] at horders2
  rw [List.length_map, hlen]
  exact horders2

theorem reorder_dense (s : VaultStore) (k d : Int)
    (hu : uniqueIds s) (hd : denseOrders s) : denseOrders (s.reorder k d) := by
  by_cases hm : (some k) ∈ s.entries.map (·.id)
  · rw [reorder_locate s k d hu hm]
    by_cases hoob : (((s.all.findIdx fun x => x.id == some k : Nat) : Int) + d < 0 ∨
        (s.all.length : Int) ≤ ((s.all.findIdx fun x => x.id == some k : Nat) : Int) + d)
    · rw [if_pos hoob]; exact hd
    · rw [if_neg hoob]
      have hall_len : s.all.length = s.entries.length := (all_perm s).length_eq
      have hidx_lt : (s.all.findIdx fun x => x.id == some k) < s.all.length :=
        findIdx_lt_of_id_mem s.all k ((all_ids_perm s).mem_iff.mpr hm)
      have hj_lt : ((((s.all.findIdx fun x => x.id == some k : Nat) : Int) + d).toNat) < s.all.length := by
        push_neg at hoob
        omega
      have hswperm : List.Perm (swapAt s.all (s.all.findIdx fun x => x.id == some k)
          ((((s.all.findIdx fun x => x.id == some k : Nat) : Int) + d).toNat)) s.all :=
        swapAt_perm s.all _ _ hidx_lt hj_lt
      have hids : List.Perm ((reorderSpec s.all (s.all.findIdx fun x => x.id == some k)
          ((((s.all.findIdx fun x => x.id == some k : Nat) : Int) + d).toNat)).map (·.id))
          (s.entries.map (·.id)) := by
        rw [show (reorderSpec s.all (s.all.findIdx fun x => x.id == some k)
            ((((s.all.findIdx fun x => x.id == some k : Nat) : Int) + d).toNat)).map (·.id)
            = (swapAt s.all (s.all.findIdx fun x => x.id == some k)
              ((((s.all.findIdx fun x => x.id == some k : Nat) : Int) + d).toNat)).map (·.id)
          from renum_ids _]
        exact (hswperm.map (·.id)).trans (all_ids_perm s)
      have horders : (reorderSpec s.all (s.all.findIdx fun x => x.id == some k)
          ((((s.all.findIdx fun x => x.id == some k : Nat) : Int) + d).toNat)).map (·.order)
          = (List.range (swapAt s.all (s.all.findIdx fun x => x.id == some k)
            ((((s.all.findIdx fun x => x.id == some k : Nat) : Int) + d).toNat)).length).map Int.ofNat :=
        map_order_renum _
      have hlen : s.entries.length = (swapAt s.all (s.all.findIdx fun x => x.id == some k)
          ((((s.all.findIdx fun x => x.id == some k : Nat) : Int) + d).toNat)).length := by
        rw [swapAt_length]
        omega
      exact dense_of_writeback s.entries _ _ hu.2 hids horders hlen
  · rw [reorder_not_mem s k d hm]
    exact hd

theorem sortEntries_dense (s : VaultStore) (desc : Bool)
    (hu : uniqueIds s) : denseOrders (s.sortEntries desc) := by
  obtain ⟨hsome, hnd⟩ := hu
  simp only [VaultStore.sortEntries]
  set le : VaultEntry → VaultEntry → Bool := fun a b =>
    if desc then !decide (sortKey a < sortKey b) else !decide (sortKey b < sortKey a) with hle
  have hsl_mem : ∀ x ∈ insSort le s.all, x.id.isSome := by
    intro x hx
    exact hsome x ((all_perm s).mem_iff.mp ((insSort_perm le s.all).mem_iff.mp hx))
  have hrenum_eq : ((pyEnum (insSort le s.all)).map fun q =>
        if q.2.id.isSome then { q.2 with order := (q.1 : Int) } else q.2)
      = (pyEnum (insSort le s.all)).map fun q => { q.2 with order := (q.1 : Int) } := by
    apply List.map_congr_left
    intro q hq
    rw [pyEnum] at hq
    rw [if_pos (hsl_mem q.2 (mem_pyEnumFrom (insSort le s.all) 0 q hq).1)]
  rw [hrenum_eq]
  have hwb_eq : (s.entries.map fun x =>
        if x.id.isSome then
          ((((pyEnum (insSort le s.all)).map fun q =>
              { q.2 with order := (q.1 : Int) }).find? fun r => r.id == x.id).getD x)
        else x)
      = s.entries.map fun x =>
          ((((pyEnum (insSort le s.all)).map fun q =>
              { q.2 with order := (q.1 : Int) }).find? fun r => r.id == x.id).getD x) := by
    apply List.map_congr_left
    intro x hx
    rw [if_pos (hsome x hx)]
  rw [hwb_eq]
  have hids : List.Perm (((pyEnum (insSort le s.all)).map fun q =>
        { q.2 with order := (q.1 : Int) }).map (·.id)) (s.entries.map (·.id)) := by
    rw [renum_ids]
    exact ((insSort_perm le s.all).map (·.id)).trans (all_ids_perm s)
  have horders := map_order_renum (insSort le s.all)
  have hlen : s.entries.length = (insSort le s.all).length := by
    rw [(insSort_perm le s.all).length_eq]
    exact ((all_perm s).length_eq).symm
  exact dense_of_writeback s.entries _ _ hnd hids horders hlen

theorem sortEntries_nextId (s : VaultStore) (desc : Bool) :
    (s.sortEntries desc).nextId = s.nextId := rfl

theorem sortEntries_extras (s : VaultStore) (desc : Bool) :
    (s.sortEntries desc).extras = s.extras := rfl

theorem idBound_of_ids_eq (s s' : VaultStore)
    (hids : s'.entries.map (·.id) = s.entries.map (·.id))
    (hnext : s'.nextId = s.nextId) (hb : idBound s) : idBound s' := by
  intro x hx kk hxk
  have hmem : x.id ∈ s.entries.map (·.id) := by
    rw [← hids]
    exact List.mem_map_of_mem (·.id) hx
  rcases List.mem_map.mp hmem with ⟨y, hy, hyx⟩
  rw [hnext]
  exact hb y hy kk (by rw [hyx]; exact hxk)

theorem add_fresh_spec (s : VaultStore) (e : VaultEntry) (he : e.id = none)
    (hb : idBound s) :
    (s.add e).1 = { e with id := some s.nextId, order := s.maxOrder + 1 } ∧
    (s.add e).2.entries =
      s.entries ++ [{ e with id := some s.nextId, order := s.maxOrder + 1 }] ∧
    (s.add e).2.nextId = s.nextId + 1 := by
  have hfresh : (some s.nextId) ∉ s.entries.map (·.id) := by
    intro hmem
    rcases List.mem_map.mp hmem with ⟨x, hx, hxid⟩
    exact absurd (hb x hx s.nextId hxid) (lt_irrefl _)
  have hany : (s.entries.any fun x =>
      x.id == ({ e with id := some s.nextId, order := s.maxOrder + 1 } : VaultEntry).id) = false :=
    (any_id_eq_false_iff _ _).mpr hfresh
  unfold VaultStore.add
  rw [he]
  refine ⟨rfl, ?_, ?_⟩
  · exact setEntry_append s.entries _ hany
  · show max s.nextId (s.nextId + 1) = s.nextId + 1
    omega

theorem add_fresh_inv (s : VaultStore) (e : VaultEntry) (he : e.id = none)
    (hb : idBound s) (hd : denseOrders s) :
    idBound (s.add e).2 ∧ denseOrders (s.add e).2 := by
  obtain ⟨_, hent, hnext⟩ := add_fresh_spec s e he hb
  constructor
  · intro x hx kk hxk
    rw [hent] at hx
    rw [hnext]
    rcases List.mem_append.mp hx with h1 | h1
    · have := hb x h1 kk hxk
      omega
    · rw [List.mem_singleton.mp h1] at hxk
      have : some s.nextId = some kk := hxk
      have hkk : kk = s.nextId := by injection this with h2; omega
      omega
  · unfold denseOrders
    rw [hent]
    rw [List.map_append, List.length_append]
    rw [maxOrder_of_dense s hd]
    have hcast : ((s.entries.length : Int) - 1) + 1 = Int.ofNat s.entries.length := by
      simp [Int.ofNat_eq_coe]
    simp only [List.map_cons, List.map_nil, List.length_cons, List.length_nil]
    rw [hcast]
    rw [show s.entries.length + (0 + 1) = s.entries.length + 1 from by omega]
    rw [List.range_succ, List.map_append]
    exact List.Perm.append hd (by simp)

theorem uniqueIds_applyOps : ∀ (ops : List StoreOp) (s : VaultStore),
    uniqueIds s → uniqueIds (applyOps s ops) := by
  intro ops
  induction ops with
  | nil => intro s hu; exact hu
  | cons op rest ih =>
    intro s hu
    exact ih (applyOp s op) (uniqueIds_applyOp s op hu)

theorem inv_applyOps : ∀ (ops : List StoreOp) (s : VaultStore),
    uniqueIds s → idBound s → denseOrders s →
    (∀ op ∈ ops, densePreserving op = true) →
    uniqueIds (applyOps s ops) ∧ idBound (applyOps s ops) ∧ denseOrders (applyOps s ops) := by
  intro ops
  induction ops with
  | nil => intro s hu hb hd _; exact ⟨hu, hb, hd⟩
  | cons op rest ih =>
    intro s hu hb hd hops
    have hop := hops op (List.mem_cons_self op rest)
    have hrest : ∀ o ∈ rest, densePreserving o = true :=
      fun o ho => hops o (List.mem_cons_of_mem op ho)
    have hstep : uniqueIds (applyOp s op) ∧ idBound (applyOp s op) ∧
        denseOrders (applyOp s op) := by
      refine ⟨uniqueIds_applyOp s op hu, ?_⟩
      cases op with
      | add e =>
        have he : e.id = none := by
          simpa [densePreserving] using hop
        exact add_fresh_inv s e he hb hd
      | update e => simp [densePreserving] at hop
      | delete k => simp [densePreserving] at hop
      | reorder k d =>
        constructor
        · exact idBound_of_ids_eq s _ (reorder_ids s k d) (reorder_nextId s k d) hb
        · exact reorder_dense s k d hu hd
      | sort desc =>
        constructor
        · exact idBound_of_ids_eq s _ (sortEntries_ids s desc) (sortEntries_nextId s desc) hb
        · exact sortEntries_dense s desc hu
    exact ih (applyOp s op) hstep.1 hstep.2.1 hstep.2.2 hrest

theorem emptyStore_uniqueIds : uniqueIds emptyStore := by
  constructor
  · intro e he
    simp [emptyStore] at he
  · simp [emptyStore]

theorem emptyStore_idBound : idBound emptyStore := by
  intro e he
  simp [emptyStore] at he

theorem emptyStore_dense : denseOrders emptyStore := by
  simp [denseOrders, emptyStore]

theorem find?_cons_eq (p : α → Bool) (a : α) (l : List α) :
    (a :: l).find? p = if p a then some a else l.find? p := by
  by_cases h : p a = true
  · rw [if_pos h]
    exact List.find?_cons_of_pos l h
  · rw [if_neg (by simpa using h)]
    exact List.find?_cons_of_neg l h

theorem find?_filter_key (t : List (String × Json)) (k : String) (hk : k ≠ "entries") :
    (t.filter fun p => p.1 != "entries").find? (fun p => p.1 == k) =
      t.find? (fun p => p.1 == k) := by
  induction t with
  | nil => rfl
  | cons a t' ih =>
    rw [List.filter_cons]
    rw [find?_cons_eq (fun p => p.1 == k) a t']
    by_cases ha : (a.1 != "entries") = true
    · rw [if_pos ha]
      rw [find?_cons_eq (fun p => p.1 == k) a _]
      by_cases hak : (a.1 == k) = true
      · rw [if_pos hak, if_pos hak]
      · rw [if_neg (by simpa using hak), if_neg (by simpa using hak)]
        exact ih
    · have ha1 : a.1 = "entries" := by
        by_contra hne
        exact ha (by simpa using hne)
      rw [if_neg (by simpa using ha)]
      rw [if_neg (by
        simp only [beq_iff_eq, ha1]
        exact fun hcontra => hk hcontra.symm)]
      exact ih

theorem loadStore_extras (doc : Json) (s : VaultStore)
    (h : loadStore doc = .ok s) : s.extras = docExtras doc := by
  unfold loadStore at h
  cases hde : docEntriesJ doc with
  | none => rw [hde] at h; simp at h
  | some j =>
    rw [hde] at h
    cases j with
    | arr items =>
      have h' : (match loadEntryLoop (pyEnum items) ([], 1) with
          | Except.ok (es, ni) => Except.ok (VaultStore.mk es ni (docExtras doc))
          | Except.error e => Except.error e) = Except.ok s := h
      cases hloop : loadEntryLoop (pyEnum items) ([], 1) with
      | ok pair =>
        obtain ⟨es, ni⟩ := pair
        rw [hloop] at h'
        simp only [Except.ok.injEq] at h'
        rw [← h']
      | error msg =>
        rw [hloop] at h'
        simp at h'
    | null => simp at h
    | bool b => simp at h
    | num n => simp at h
    | str st => simp at h
    | obj o => simp at h

/-! ## Claim theorems -/

/-- Claim C4 (amended): every unrecognized top-level key of an object
document alongside `entries` is preserved unchanged through a load
followed by a save; unrecognized per-record keys, by contrast, are
dropped by this store (see the counterexample). -/
theorem load_save_extras_preserved (fs : List (String × Json)) (s : VaultStore) (k : String)
    (hload : loadStore (.obj fs) = .ok s) (hk : k ≠ "entries") :
    jLookupDoc k (saveDoc s) = jLookup k fs := by
  have hex : s.extras = fs.filter fun p => p.1 != "entries" :=
    loadStore_extras (Json.obj fs) s hload
  show jLookup k (("entries", Json.arr (s.all.map entryJson)) :: s.extras) = jLookup k fs
  unfold jLookup
  rw [List.find?_cons_of_neg _ (by
    simp only [beq_iff_eq]
    exact fun hcontra => hk hcontra.symm)]
  rw [hex]
  rw [find?_filter_key fs k hk]

/-- Witness for C4: the spec's own example `{"entries": [...], "customKey": "v"}`. -/
theorem load_save_extras_witness :
    jLookupDoc "customKey"
      (saveDoc (VaultStore.mk [] 1 [("customKey", Json.str "v")])) =
      jLookup "customKey" [("entries", Json.arr []), ("customKey", Json.str "v")] :=
  load_save_extras_preserved [("entries", Json.arr []), ("customKey", Json.str "v")]
    (VaultStore.mk [] 1 [("customKey", Json.str "v")]) "customKey" rfl (by decide)

/-- Counterexample to C4 as stated: an unrecognized per-record key
(`"custom"`) is present in the loaded document's first entry but absent
from the saved document — the store drops per-record fields it does not
recognize. -/
theorem load_save_entry_field_counterexample :
    firstEntryField (Json.obj [("entries", Json.arr [Json.obj
        [("serviceName", Json.str "A"), ("custom", Json.str "v")]])]) "custom" =
      some (Json.str "v") ∧
    (loadStore (Json.obj [("entries", Json.arr [Json.obj
        [("serviceName", Json.str "A"), ("custom", Json.str "v")]])])).map
      (fun s => firstEntryField (saveDoc s) "custom") = .ok none :=
  ⟨rfl, rfl⟩

/-- Claim C5 (amended): `update` on an entry with unset id raises; `update`
with an unknown (set) id silently inserts the entry as a new dict key;
`delete` and `reorder` with an unknown id return normally and leave the
store unchanged — none of the three reports a `NotFound` error. -/
theorem notfound_behavior (s : VaultStore) (e : VaultEntry) (k d : Int) :
    (e.id = none → s.updateE e = .error "Cannot update entry without id") ∧
    (∀ k', e.id = some k' → (some k') ∉ s.entries.map (·.id) →
      s.updateE e = .ok { s with entries := s.entries ++ [e] }) ∧
    ((some k) ∉ s.entries.map (·.id) → s.deleteE k = .ok s ∧ s.reorder k d = s) := by
  refine ⟨?_, ?_, ?_⟩
  · intro he
    unfold VaultStore.updateE
    rw [he]
  · intro k' he' hnot
    unfold VaultStore.updateE
    rw [he']
    rw [setEntry_append s.entries e ((any_id_eq_false_iff s.entries e.id).mpr
      (by rw [he']; exact hnot))]
  · intro hnot
    constructor
    · unfold VaultStore.deleteE
      rw [(any_id_eq_false_iff s.entries (some k)).mpr hnot]
      rfl
    · exact reorder_not_mem s k d hnot

/-- Witness for C5 (amended): a concrete store exercising each branch. -/
theorem notfound_witness :
    ((VaultStore.mk [⟨some 1, "Mail", "", "", "", 0⟩] 2 []).updateE
        ⟨none, "X", "", "", "", 0⟩ = .error "Cannot update entry without id") ∧
    ((VaultStore.mk [⟨some 1, "Mail", "", "", "", 0⟩] 2 []).updateE
        ⟨some 7, "X", "", "", "", 5⟩ =
      .ok (VaultStore.mk [⟨some 1, "Mail", "", "", "", 0⟩, ⟨some 7, "X", "", "", "", 5⟩] 2 [])) ∧
    ((VaultStore.mk [⟨some 1, "Mail", "", "", "", 0⟩] 2 []).deleteE 99 =
        .ok (VaultStore.mk [⟨some 1, "Mail", "", "", "", 0⟩] 2 []) ∧
      (VaultStore.mk [⟨some 1, "Mail", "", "", "", 0⟩] 2 []).reorder 99 1 =
        VaultStore.mk [⟨some 1, "Mail", "", "", "", 0⟩] 2 []) :=
  ⟨(notfound_behavior _ ⟨none, "X", "", "", "", 0⟩ 99 1).1 rfl,
   (notfound_behavior _ ⟨some 7, "X", "", "", "", 5⟩ 99 1).2.1 7 rfl (by decide),
   (notfound_behavior (VaultStore.mk [⟨some 1, "Mail", "", "", "", 0⟩] 2 [])
      ⟨some 7, "X", "", "", "", 5⟩ 99 1).2.2 (by decide)⟩

/-- Counterexample to C5 as stated: `delete`, `reorder` and `update` on an
id that is not present return normally (`.ok`, store unchanged or entry
silently inserted) instead of reporting an error. -/
theorem notfound_counterexample :
    ((VaultStore.mk [⟨some 1, "Mail", "", "", "", 0⟩] 2 []).deleteE 99 =
        .ok (VaultStore.mk [⟨some 1, "Mail", "", "", "", 0⟩] 2 [])) ∧
    ((VaultStore.mk [⟨some 1, "Mail", "", "", "", 0⟩] 2 []).reorder 99 1 =
        VaultStore.mk [⟨some 1, "Mail", "", "", "", 0⟩] 2 []) ∧
    ((VaultStore.mk [⟨some 1, "Mail", "", "", "", 0⟩] 2 []).updateE
        ⟨some 7, "X", "", "", "", 5⟩ =
      .ok (VaultStore.mk [⟨some 1, "Mail", "", "", "", 0⟩, ⟨some 7, "X", "", "", "", 5⟩] 2 [])) :=
  ⟨rfl, rfl, rfl⟩

/-- Claim C6 (amended): starting from the empty store, entry ids stay
unique after any sequence of operations; the multiset of `order` values
is exactly `{0, ..., n-1}` for sequences of fresh adds (unset id),
reorders and sorts — `delete` and `update` may break density (see the
counterexample). -/
theorem store_ops_invariant (ops : List StoreOp) :
    uniqueIds (applyOps emptyStore ops) ∧
    ((∀ op ∈ ops, densePreserving op = true) → denseOrders (applyOps emptyStore ops)) := by
  constructor
  · exact uniqueIds_applyOps ops emptyStore emptyStore_uniqueIds
  · intro hops
    exact (inv_applyOps ops emptyStore emptyStore_uniqueIds emptyStore_idBound
      emptyStore_dense hops).2.2

/-- Witness for C6: two adds, a reorder and a sort give unique ids and
dense orders. -/
theorem store_ops_witness :
    uniqueIds (applyOps emptyStore
      [.add { serviceName := "Mail" }, .add { serviceName := "Bank" },
       .reorder 1 1, .sort false]) ∧
    denseOrders (applyOps emptyStore
      [.add { serviceName := "Mail" }, .add { serviceName := "Bank" },
       .reorder 1 1, .sort false]) :=
  ⟨(store_ops_invariant [.add { serviceName := "Mail" }, .add { serviceName := "Bank" },
       .reorder 1 1, .sort false]).1,
   (store_ops_invariant [.add { serviceName := "Mail" }, .add { serviceName := "Bank" },
       .reorder 1 1, .sort false]).2 (by decide)⟩

/-- Counterexample to C6 as stated: after `add, add, delete 1` the orders
are `{1}`, not `{0}`; an `update` with an arbitrary `order` and an `add`
that overwrites an existing id also break density. -/
theorem store_ops_counterexample :
    ¬ denseOrders (applyOps emptyStore
      [.add { serviceName := "Mail" }, .add { serviceName := "Bank" }, .delete 1]) ∧
    ¬ denseOrders (applyOps emptyStore
      [.add { serviceName := "Mail" }, .add { serviceName := "Bank" },
       .update { id := some 1, serviceName := "Mail", order := 5 }]) ∧
    ¬ denseOrders (applyOps emptyStore
      [.add { serviceName := "Mail" }, .add { serviceName := "Bank" },
       .add { id := some 1, serviceName := "Mail2" }]) := by
  refine ⟨?_, ?_, ?_⟩ <;> decide

/-- Claim C7: `add` on an entry with unset id assigns the counter value as
the id, advances the counter by one, and sets `order` to
`maxOrder + 1` (`0` on an empty store); concretely the first two adds on
an empty store produce `(id 1, order 0)` and `(id 2, order 1)`. -/
theorem add_assigns_id_order (s : VaultStore) (e e' : VaultEntry)
    (he : e.id = none) (he' : e'.id = none) :
    ((s.add e).1.id = some s.nextId ∧
     (s.add e).2.nextId = s.nextId + 1 ∧
     (s.add e).1.order = s.maxOrder + 1 ∧
     (s.entries = [] → (s.add e).1.order = 0)) ∧
    ((emptyStore.add e).1.id = some 1 ∧ (emptyStore.add e).1.order = 0 ∧
     ((emptyStore.add e).2.add e').1.id = some 2 ∧
     ((emptyStore.add e).2.add e').1.order = 1) := by
  have hgen : ∀ (t : VaultStore) (f : VaultEntry), f.id = none →
      (t.add f).1 = { f with id := some t.nextId, order := t.maxOrder + 1 } ∧
      (t.add f).2.entries = setEntry t.entries { f with id := some t.nextId, order := t.maxOrder + 1 } ∧
      (t.add f).2.nextId = t.nextId + 1 := by
    intro t f hf
    unfold VaultStore.add
    rw [hf]
    refine ⟨rfl, rfl, ?_⟩
    show max t.nextId (t.nextId + 1) = t.nextId + 1
    omega
  obtain ⟨h1, h2, h3⟩ := hgen s e he
  obtain ⟨g1, g2, g3⟩ := hgen emptyStore e he
  have hmax0 : emptyStore.maxOrder = -1 := rfl
  have hstore1_entries : (emptyStore.add e).2.entries =
      [{ e with id := some 1, order := 0 }] := by
    rw [g2, hmax0]
    norm_num
    rfl
  obtain ⟨f1, f2, f3⟩ := hgen (emptyStore.add e).2 e' he'
  have hmax1 : (emptyStore.add e).2.maxOrder = 0 := by
    unfold VaultStore.maxOrder
    rw [hstore1_entries]
    rfl
  refine ⟨⟨by rw [h1], h3, by rw [h1], ?_⟩, ?_, ?_, ?_, ?_⟩
  · intro hempty
    rw [h1]
    show s.maxOrder + 1 = 0
    unfold VaultStore.maxOrder
    rw [hempty]
    norm_num
  · rw [g1]
    rfl
  · rw [g1, hmax0]
    norm_num
  · rw [f1, g3]
    rfl
  · rw [f1, hmax1]
    norm_num

/-- Witness for C7: the spec's concrete two-add scenario. -/
theorem add_assigns_witness :
    ((emptyStore.add { serviceName := "Mail", username := "a@b.com", password := "x" }).1.id =
        some 1 ∧
     (emptyStore.add { serviceName := "Mail", username := "a@b.com", password := "x" }).1.order = 0 ∧
     ((emptyStore.add { serviceName := "Mail", username := "a@b.com", password := "x" }).2.add
        { serviceName := "Bank" }).1.id = some 2 ∧
     ((emptyStore.add { serviceName := "Mail", username := "a@b.com", password := "x" }).2.add
        { serviceName := "Bank" }).1.order = 1) :=
  (add_assigns_id_order emptyStore
    { serviceName := "Mail", username := "a@b.com", password := "x" }
    { serviceName := "Bank" } rfl rfl).2

/-- Claim C8: `reorder(id, delta)` locates the entry's position in the
`(order, id)`-sorted sequence; an out-of-bounds target leaves the store
completely unchanged (a no-op); otherwise the entry is swapped with the
neighbor at that position and every entry's `order` is renormalized to
its dense index (the result's entry multiset equals `reorderSpec`);
in particular `reorder(firstEntryId, -1)` and `reorder(lastEntryId, +1)`
leave the store unchanged. -/
theorem reorder_spec_correct (s : VaultStore) (k d : Int)
    (hu : uniqueIds s) (hm : (some k) ∈ s.entries.map (·.id)) :
    ((((s.all.findIdx fun x => x.id == some k : Nat) : Int) + d < 0 ∨
        (s.all.length : Int) ≤ ((s.all.findIdx fun x => x.id == some k : Nat) : Int) + d) →
      s.reorder k d = s) ∧
    ((0 ≤ ((s.all.findIdx fun x => x.id == some k : Nat) : Int) + d ∧
        ((s.all.findIdx fun x => x.id == some k : Nat) : Int) + d < (s.all.length : Int)) →
      List.Perm (s.reorder k d).entries
        (reorderSpec s.all (s.all.findIdx fun x => x.id == some k)
          ((((s.all.findIdx fun x => x.id == some k : Nat) : Int) + d).toNat)) ∧
      (s.reorder k d).nextId = s.nextId ∧ (s.reorder k d).extras = s.extras) ∧
    ((s.all.findIdx fun x => x.id == some k) = 0 → s.reorder k (-1) = s) ∧
    ((s.all.findIdx fun x => x.id == some k) = s.all.length - 1 → s.reorder k 1 = s) := by
  have hidx_lt : (s.all.findIdx fun x => x.id == some k) < s.all.length :=
    findIdx_lt_of_id_mem s.all k ((all_ids_perm s).mem_iff.mpr hm)
  refine ⟨?_, ?_, ?_, ?_⟩
  · intro hoob
    rw [reorder_locate s k d hu hm, if_pos hoob]
  · intro hin
    rw [reorder_locate s k d hu hm, if_neg (by omega)]
    refine ⟨?_, rfl, rfl⟩
    have hj_lt : ((((s.all.findIdx fun x => x.id == some k : Nat) : Int) + d).toNat) <
        s.all.length := by omega
    have hswperm := swapAt_perm s.all _ _ hidx_lt hj_lt
    have hids : List.Perm ((reorderSpec s.all (s.all.findIdx fun x => x.id == some k)
        ((((s.all.findIdx fun x => x.id == some k : Nat) : Int) + d).toNat)).map (·.id))
        (s.entries.map (·.id)) := by
      rw [show (reorderSpec s.all (s.all.findIdx fun x => x.id == some k)
          ((((s.all.findIdx fun x => x.id == some k : Nat) : Int) + d).toNat)).map (·.id)
          = (swapAt s.all (s.all.findIdx fun x => x.id == some k)
            ((((s.all.findIdx fun x => x.id == some k : Nat) : Int) + d).toNat)).map (·.id)
        from renum_ids _]
      exact (hswperm.map (·.id)).trans (all_ids_perm s)
    exact map_find_getD_perm s.entries _ hu.2 hids
  · intro hfirst
    rw [reorder_locate s k (-1) hu hm, if_pos (by omega)]
  · intro hlast
    rw [reorder_locate s k 1 hu hm, if_pos (by omega)]

/-- Witness for C8: a two-entry store; moving the first entry up is a
no-op and moving it down swaps and renumbers. -/
theorem reorder_witness :
    ((VaultStore.mk [⟨some 1, "Mail", "", "", "", 0⟩, ⟨some 2, "Bank", "", "", "", 1⟩] 3
        []).reorder 1 (-1) =
      VaultStore.mk [⟨some 1, "Mail", "", "", "", 0⟩, ⟨some 2, "Bank", "", "", "", 1⟩] 3 []) ∧
    List.Perm ((VaultStore.mk [⟨some 1, "Mail", "", "", "", 0⟩, ⟨some 2, "Bank", "", "", "", 1⟩]
        3 []).reorder 1 1).entries
      (reorderSpec (VaultStore.mk [⟨some 1, "Mail", "", "", "", 0⟩,
        ⟨some 2, "Bank", "", "", "", 1⟩] 3 []).all 0 1) :=
  ⟨(reorder_spec_correct (VaultStore.mk [⟨some 1, "Mail", "", "", "", 0⟩,
      ⟨some 2, "Bank", "", "", "", 1⟩] 3 []) 1 (-1) (by decide) (by decide)).2.2.1 (by decide),
   ((reorder_spec_correct (VaultStore.mk [⟨some 1, "Mail", "", "", "", 0⟩,
      ⟨some 2, "Bank", "", "", "", 1⟩] 3 []) 1 1 (by decide) (by decide)).2.1
      (by constructor <;> decide)).1⟩

/-- Evaluation of `decrypt_vault` once the envelope parses: verify the
recomputed tag, then either return the decrypted bytes with `True` or
`("", False)`. -/
theorem decrypt_vault_ok (C : GCMCipher) (blob : List Nat) (pass : String) (p : VaultPayload)
    (hp : VaultPayload.from_bytes blob = .ok p) :
    decrypt_vault C blob pass =
      (if C.tagOf (derive_key pass p.salt) p.nonce p.ciphertext = p.tag
       then .ok (C.xcrypt (derive_key pass p.salt) p.nonce p.ciphertext, true)
       else .ok ([], false)) := by
  unfold decrypt_vault
  rw [hp]

/-- Claim C1: fail-closed authenticated decryption — for every envelope
blob that parses and every passphrase, if GCM verification does not pass
(the tag recomputed over the ciphertext under the derived key and nonce
differs from the stored tag, as happens for a wrong passphrase or a
modified nonce/tag/ciphertext byte), `decrypt_vault` returns the
authentication-failure result `("", False)` and never any decoded
plaintext. -/
theorem decrypt_vault_fail_closed (C : GCMCipher) (blob : List Nat) (passphrase : String)
    (payload : VaultPayload)
    (hparse : VaultPayload.from_bytes blob = .ok payload)
    (hfail : C.tagOf (derive_key passphrase payload.salt) payload.nonce payload.ciphertext ≠
      payload.tag) :
    decrypt_vault C blob passphrase = .ok ([], false) := by
  rw [decrypt_vault_ok C blob passphrase payload hparse]
  rw [if_neg hfail]

/-- Witness for C1: a syntactically valid envelope whose stored tag does
not verify yields `("", False)`. -/
theorem decrypt_vault_fail_closed_witness :
    decrypt_vault xorModelCipher
      (MAGIC ++ List.replicate 16 0 ++ List.replicate 12 0 ++ List.replicate 16 1 ++ [5])
      "pw" = .ok ([], false) :=
  decrypt_vault_fail_closed xorModelCipher
    (MAGIC ++ List.replicate 16 0 ++ List.replicate 12 0 ++ List.replicate 16 1 ++ [5]) "pw"
    ⟨List.replicate 16 0, List.replicate 12 0, List.replicate 16 1, [5]⟩
    (by rfl) (by decide)

/-- Claim C2: encrypt/decrypt round trip — for every plaintext byte
sequence (the UTF-8 encoding of the document), every passphrase and every
well-formed fresh salt/nonce, decrypting the encryption returns exactly
the plaintext with `verified = True`. -/
theorem encrypt_decrypt_roundtrip (C : GCMCipher) (salt nonce plaintext : List Nat)
    (passphrase : String) (hs : salt.length = SALT_SIZE) (hn : nonce.length = NONCE_SIZE) :
    decrypt_vault C (encrypt_vault C salt nonce plaintext passphrase) passphrase =
      .ok (plaintext, true) := by
  have henc : encrypt_vault C salt nonce plaintext passphrase =
      (VaultPayload.mk salt nonce
        (C.tagOf (derive_key passphrase salt) nonce
          (C.xcrypt (derive_key passphrase salt) nonce plaintext))
        (C.xcrypt (derive_key passphrase salt) nonce plaintext)).to_bytes := rfl
  rw [decrypt_vault_ok C _ passphrase _ (by
    rw [henc]
    exact from_bytes_of_to_bytes _ hs hn (C.tagOf_length _ _ _))]
  rw [if_pos rfl]
  rw [C.xcrypt_invol]

/-- Witness for C2: a concrete round trip through the model cipher. -/
theorem encrypt_decrypt_roundtrip_witness :
    decrypt_vault xorModelCipher
      (encrypt_vault xorModelCipher (List.replicate 16 1) (List.replicate 12 2)
        [10, 20, 30] "pw") "pw" = .ok ([10, 20, 30], true) :=
  encrypt_decrypt_roundtrip xorModelCipher (List.replicate 16 1) (List.replicate 12 2)
    [10, 20, 30] "pw" (by decide) (by decide)

/-- Claim C9: `derive_key` is a pure deterministic function of
`(passphrase, salt)` — equal inputs give equal keys — and is PBKDF2 over
HMAC-SHA-256 with exactly 10,000 iterations, returning a 32-byte key. -/
theorem derive_key_spec (p : String) (salt : List Nat) (p' : String) (salt' : List Nat)
    (hp : p = p') (hsalt : salt = salt') :
    derive_key p salt = derive_key p' salt' ∧
    derive_key p salt = pbkdf2HmacSha256 (utf8Bytes p) salt 10000 32 ∧
    (derive_key p salt).length = 32 :=
  ⟨by rw [hp, hsalt], rfl, derive_key_length p salt⟩

/-- Witness for C9 at a concrete passphrase and salt. -/
theorem derive_key_spec_witness :
    derive_key "correct horse" [0, 1, 2] = derive_key "correct horse" [0, 1, 2] ∧
    derive_key "correct horse" [0, 1, 2] =
      pbkdf2HmacSha256 (utf8Bytes "correct horse") [0, 1, 2] 10000 32 ∧
    (derive_key "correct horse" [0, 1, 2]).length = 32 :=
  derive_key_spec "correct horse" [0, 1, 2] "correct horse" [0, 1, 2] rfl rfl

/-- Claim C10: envelope round trip — a payload with well-formed field
lengths survives `to_bytes` then `from_bytes` unchanged, and any blob of
length at least 48 starting with the magic survives `from_bytes` then
`to_bytes`, its decoded ciphertext having length exactly
`blob.length - 48`. -/
theorem payload_roundtrip (p : VaultPayload) (blob : List Nat)
    (hs : p.salt.length = SALT_SIZE) (hn : p.nonce.length = NONCE_SIZE)
    (ht : p.tag.length = TAG_SIZE) (hblen : 48 ≤ blob.length)
    (hmagic : blob.take 4 = MAGIC) :
    VaultPayload.from_bytes p.to_bytes = .ok p ∧
    (VaultPayload.from_bytes blob).map VaultPayload.to_bytes = .ok blob ∧
    ∀ q, VaultPayload.from_bytes blob = .ok q →
      q.ciphertext.length = blob.length - 48 := by
  have hfb : VaultPayload.from_bytes blob =
      .ok ⟨(blob.drop 4).take 16, (blob.drop 20).take 12, (blob.drop 32).take 16,
        blob.drop 48⟩ := by
    simp only [VaultPayload.from_bytes, magic_length, SALT_SIZE, NONCE_SIZE, TAG_SIZE]
    rw [if_neg (by omega)]
    rw [if_neg (not_not_intro hmagic)]
  refine ⟨from_bytes_of_to_bytes p hs hn ht, ?_, ?_⟩
  · rw [hfb]
    simp only [Except.map]
    congr 1
    show MAGIC ++ (blob.drop 4).take 16 ++ (blob.drop 20).take 12 ++
      (blob.drop 32).take 16 ++ blob.drop 48 = blob
    rw [← hmagic]
    rw [show blob.take 4 ++ (blob.drop 4).take 16 ++ (blob.drop 20).take 12 ++
        (blob.drop 32).take 16 ++ blob.drop 48 =
      blob.take 4 ++ ((blob.drop 4).take 16 ++ ((blob.drop 20).take 12 ++
        ((blob.drop 32).take 16 ++ blob.drop 48))) by simp [List.append_assoc]]
    conv_rhs => rw [← List.take_append_drop 4 blob]
    congr 1
    conv_rhs => rw [← List.take_append_drop 16 (blob.drop 4)]
    congr 1
    rw [show (blob.drop 4).drop 16 = blob.drop 20 by rw [List.drop_drop]]
    conv_rhs => rw [← List.take_append_drop 12 (blob.drop 20)]
    congr 1
    rw [show (blob.drop 20).drop 12 = blob.drop 32 by rw [List.drop_drop]]
    conv_rhs => rw [← List.take_append_drop 16 (blob.drop 32)]
    congr 1
    rw [List.drop_drop]
  · intro q hq
    rw [hfb] at hq
    simp only [Except.ok.injEq] at hq
    rw [← hq]
    exact List.length_drop 48 blob

/-- Witness for C10 at a concrete payload and blob. -/
theorem payload_roundtrip_witness :
    VaultPayload.from_bytes
        (VaultPayload.mk (List.replicate 16 0) (List.replicate 12 1)
          (List.replicate 16 2) [9]).to_bytes =
      .ok (VaultPayload.mk (List.replicate 16 0) (List.replicate 12 1)
        (List.replicate 16 2) [9]) ∧
    (VaultPayload.from_bytes (MAGIC ++ List.replicate 44 7)).map VaultPayload.to_bytes =
      .ok (MAGIC ++ List.replicate 44 7) :=
  ⟨(payload_roundtrip (VaultPayload.mk (List.replicate 16 0) (List.replicate 12 1)
      (List.replicate 16 2) [9]) (MAGIC ++ List.replicate 44 7)
      (by decide) (by decide) (by decide) (by decide) (by decide)).1,
   (payload_roundtrip (VaultPayload.mk (List.replicate 16 0) (List.replicate 12 1)
      (List.replicate 16 2) [9]) (MAGIC ++ List.replicate 44 7)
      (by decide) (by decide) (by decide) (by decide) (by decide)).2.1⟩

/-- Claim C3 (amended): `from_bytes` succeeds exactly when the blob has at
least 48 bytes and starts with the magic; a shorter blob reports "Vault
file too small" and a long-enough blob without the magic reports
"Invalid vault header".  There is no legacy fallback parse, and an empty
ciphertext (a 48-byte magic blob) is accepted, not rejected. -/
theorem from_bytes_error_characterization (blob : List Nat) :
    isOkE (VaultPayload.from_bytes blob) =
      (decide (48 ≤ blob.length) && (blob.take 4 == MAGIC)) ∧
    (blob.length < 48 → VaultPayload.from_bytes blob = .error "Vault file too small") ∧
    (48 ≤ blob.length → blob.take 4 ≠ MAGIC →
      VaultPayload.from_bytes blob = .error "Invalid vault header") := by
  simp only [VaultPayload.from_bytes, magic_length, SALT_SIZE, NONCE_SIZE, TAG_SIZE]
  by_cases h1 : blob.length < 4 + 16 + 12 + 16
  · rw [if_pos h1]
    refine ⟨?_, fun _ => rfl, fun h2 _ => absurd h1 (by omega)⟩
    show false = _
    have hlen : ¬ (48 ≤ blob.length) := by omega
    simp [hlen]
  · rw [if_neg h1]
    by_cases h2 : blob.take 4 ≠ MAGIC
    · rw [if_pos h2]
      refine ⟨?_, fun hc => absurd hc (by omega), fun _ _ => rfl⟩
      show false = _
      have hne : (blob.take 4 == MAGIC) = false := by simpa using h2
      simp [hne]
    · rw [if_neg h2]
      refine ⟨?_, fun hc => absurd hc (by omega), fun _ hcon => absurd hcon h2⟩
      show true = _
      have heq : blob.take 4 = MAGIC := not_not.mp h2
      have h48 : (48 : Nat) ≤ blob.length := by omega
      simp [heq, h48]

/-- Witness for C3 (amended): the two error messages at concrete blobs. -/
theorem from_bytes_error_witness :
    VaultPayload.from_bytes [0, 0] = .error "Vault file too small" ∧
    VaultPayload.from_bytes (List.replicate 64 0) = .error "Invalid vault header" :=
  ⟨(from_bytes_error_characterization [0, 0]).2.1 (by decide),
   (from_bytes_error_characterization (List.replicate 64 0)).2.2 (by decide) (by decide)⟩

/-- Counterexample to C3 as stated: a 64-byte blob of zeros has no magic
but a 16-byte block-aligned ciphertext, so the spec's rule says it parses
as Legacy (no format error), yet the code rejects it; a 48-byte magic
blob has an empty ciphertext, which the spec's rule calls a format
error, yet the code accepts it. -/
theorem from_bytes_spec_counterexample :
    specFormatError (List.replicate 64 0) = false ∧
    isOkE (VaultPayload.from_bytes (List.replicate 64 0)) = false ∧
    specFormatError (MAGIC ++ List.replicate 44 0) = true ∧
    isOkE (VaultPayload.from_bytes (MAGIC ++ List.replicate 44 0)) = true := by
  refine ⟨?_, ?_, ?_, ?_⟩ <;> decide
